import Mathlib

/-!
# Verification of `insta-dl` (`src/main.py`)

A shallow embedding of the structured logic of the `insta-dl` command-line
tool: filename sanitation (`sanitize`), value coercion (`coerce`), argument
parsing (`parse_args`), URL normalisation (`clean_url` / `extract_shortcode`,
including the parts of CPython's `urllib.parse` they rely on), the download
log (`logged_shortcodes` / `append_log`, including the JSON line format), the
session bootstrap (`init_session`) and the download workflow of `main`.

Python strings are modelled as `List Char` (sequences of Unicode scalar
values).  Functions that call `sys.exit(1)` or raise are modelled as
`Option` / `Except` valued.  External effects (network, browser cookies,
filesystem) are modelled as explicit environment records and event traces.
-/

namespace InstaDl

/-- Shorthand turning a Lean string literal into the `List Char`
representation used for Python strings throughout this development. -/
def pstr (s : String) : List Char := s.toList

/-! ## Filename sanitiser (`sanitize`, src/main.py lines 150-155) -/

/-- The characters replaced by `sanitize`'s regex `[/:*?"<>|\\]`. -/
def hostileChars : List Char := pstr "/:*?\"<>|\\"

/-- Python `s[:k]` for an arbitrary integer bound `k` (a negative bound
counts from the end of the string, clamped at 0). -/
def pySliceTo (l : List Char) (k : Int) : List Char :=
  if 0 ≤ k then l.take k.toNat else l.take ((l.length : Int) + k).toNat

/-- Python `s.rsplit(" ", 1)[0]`: everything strictly before the last space
character, or the whole string when it contains no space. -/
def rsplitSpaceHead (l : List Char) : List Char :=
  if ' ' ∈ l then ((l.reverse.dropWhile (fun c => c != ' ')).tail).reverse else l

/-- Python `s.rstrip(". ")`: remove trailing dots and spaces. -/
def pyRstripDotSpace (l : List Char) : List Char :=
  (l.reverse.dropWhile (fun c => c == '.' || c == ' ')).reverse

/-- One step of `re.sub(r'[/:*?"<>|\\]', "_", name)`. -/
def replaceHostile (c : Char) : Char := if c ∈ hostileChars then '_' else c

/-- `sanitize(name, max_len)` from src/main.py: truncate over-long names at
the last space of the `max_len`-character slice, replace the
filesystem-hostile characters by `_`, strip trailing dots and spaces.
`max_len` is an `Int` because Python's `int` is unbounded and a negative
value is reachable from the command line. -/
def sanitize (name : List Char) (maxLen : Int) : List Char :=
  let name' := if (name.length : Int) > maxLen then rsplitSpaceHead (pySliceTo name maxLen)
    else name
  pyRstripDotSpace (name'.map replaceHostile)

/-- The six characters Python's `str.split()` treats as whitespace. -/
def isPyWhitespace (c : Char) : Bool :=
  c == ' ' || c == '\t' || c == '\n' || c == '\r' || c == '\x0b' || c == '\x0c'

/-- Modelled from the spec: §4.6 reads "truncate to that length and then
backtrack to the last *whitespace* boundary".  This variant of `sanitize`
follows those words (backtracking at any whitespace character), for
comparison with the code's space-only `rsplit(" ", 1)`. -/
def sanitizeSpecWhitespaceBacktrack (name : List Char) (maxLen : Int) : List Char :=
  let name' := if (name.length : Int) > maxLen then
      (let t := pySliceTo name maxLen
       if t.any isPyWhitespace then ((t.reverse.dropWhile (fun c => !isPyWhitespace c)).tail).reverse
       else t)
    else name
  pyRstripDotSpace (name'.map replaceHostile)

/-! ## Value coercion (`coerce`, src/main.py lines 158-171)

`coerce` tries `value.lower()` against boolean literals, then `int(value)`,
then `float(value)`, then falls back to the literal string.  The `int` and
`float` parsers below model CPython's base-10 string conversions on ASCII
input (ASCII whitespace stripping, optional sign, underscores allowed
between digits); non-ASCII digits and case-mapping are outside the model's
scope, as every literal the program compares against is ASCII. -/

/-- ASCII lowercasing of one character (scope of the model's `str.lower()`). -/
def asciiLowerChar (c : Char) : Char :=
  if 'A' ≤ c ∧ c ≤ 'Z' then Char.ofNat (c.toNat + 32) else c

/-- `value.lower()` (ASCII scope). -/
def pyLower (l : List Char) : List Char := l.map asciiLowerChar

def isAsciiDigit (c : Char) : Bool := '0' ≤ c && c ≤ '9'

/-- Python `str.strip()` with no argument: remove leading and trailing
whitespace (ASCII scope). -/
def pyStripWs (l : List Char) : List Char :=
  ((l.dropWhile isPyWhitespace).reverse.dropWhile isPyWhitespace).reverse

/-- No two adjacent underscores. -/
def noDoubleUnderscore (l : List Char) : Bool :=
  (l.zip l.tail).all (fun p => !(p.1 == '_' && p.2 == '_'))

/-- A nonempty run of ASCII digits in which underscores may appear only
between digits — the digit-group syntax shared by `int()` and `float()`. -/
def digitGroupOk (l : List Char) : Bool :=
  !l.isEmpty && l.all (fun c => isAsciiDigit c || c == '_') &&
  (l.head?.elim false isAsciiDigit) && (l.getLast?.elim false isAsciiDigit) &&
  noDoubleUnderscore l

/-- Numeric value of a digit group (underscores skipped). -/
def digitsVal (l : List Char) : Nat :=
  (l.filter (fun c => c != '_')).foldl (fun n c => 10 * n + (c.toNat - 48)) 0

/-- `int(value)` on a string: strip whitespace, optional sign, digit group. -/
def pyIntParse (s : List Char) : Option Int :=
  match pyStripWs s with
  | '+' :: r => if digitGroupOk r then some ((digitsVal r : Int)) else none
  | '-' :: r => if digitGroupOk r then some (-(digitsVal r : Int)) else none
  | r => if digitGroupOk r then some ((digitsVal r : Int)) else none

/-- The value of a Python `float`, with rationals standing for the finite
values (the decimal literals the parser accepts are exact rationals; IEEE
rounding is outside the model's scope and irrelevant to the claims). -/
inductive PyFloat where
  | finite (q : ℚ)
  | inf (neg : Bool)
  | nan (neg : Bool)
deriving DecidableEq, Repr

/-- Exponent part of a float literal: optional sign then digit group. -/
def parseExpPart (l : List Char) : Option Int :=
  match l with
  | '+' :: r => if digitGroupOk r then some ((digitsVal r : Int)) else none
  | '-' :: r => if digitGroupOk r then some (-(digitsVal r : Int)) else none
  | r => if digitGroupOk r then some ((digitsVal r : Int)) else none

/-- Mantissa of a float literal: `digits [. digits]`, `. digits` or
`digits .`, each digit group obeying the underscore rules. -/
def parseMantissa (l : List Char) : Option ℚ :=
  if '.' ∈ l then
    let ip := l.takeWhile (fun d => d != '.')
    let fp := (l.dropWhile (fun d => d != '.')).tail
    if '.' ∈ fp then none
    else if ip = [] ∧ fp = [] then none
    else if ip ≠ [] ∧ ¬ (digitGroupOk ip = true) then none
    else if fp ≠ [] ∧ ¬ (digitGroupOk fp = true) then none
    else some ((digitsVal ip : ℚ) +
      (digitsVal fp : ℚ) / (10 : ℚ) ^ (fp.filter (fun c => c != '_')).length)
  else if digitGroupOk l then some ((digitsVal l : ℚ)) else none

/-- `float(value)` on a string: strip whitespace, optional sign, then
`inf`/`infinity`/`nan` (case-insensitive) or mantissa with optional
`e`-exponent. -/
def pyFloatParse (s : List Char) : Option PyFloat :=
  let t := pyStripWs s
  let sb : Bool × List Char := match t with
    | '+' :: r => (false, r)
    | '-' :: r => (true, r)
    | r => (false, r)
  let neg := sb.1
  let bl := pyLower sb.2
  if bl = pstr "inf" ∨ bl = pstr "infinity" then some (.inf neg)
  else if bl = pstr "nan" then some (.nan neg)
  else
    let me : List Char × Option (List Char) :=
      if 'e' ∈ bl then (bl.takeWhile (fun d => d != 'e'), some ((bl.dropWhile (fun d => d != 'e')).tail))
      else (bl, none)
    match parseMantissa me.1 with
    | none => none
    | some q =>
      match me.2 with
      | none => some (.finite (if neg then -q else q))
      | some ex =>
        match parseExpPart ex with
        | none => none
        | some k => some (.finite ((if neg then -q else q) * (10 : ℚ) ^ (k : ℤ)))

/-- A Python value as produced by `coerce`. -/
inductive PyVal where
  | pybool (b : Bool)
  | pyint (n : Int)
  | pyfloat (f : PyFloat)
  | pystr (s : List Char)
deriving DecidableEq, Repr

/-- The truthy boolean literals recognised by `coerce`. -/
def trueLits : List (List Char) := [pstr "true", pstr "1", pstr "yes"]

/-- The falsy boolean literals recognised by `coerce`. -/
def falseLits : List (List Char) := [pstr "false", pstr "0", pstr "no"]

/-- `coerce(value)` from src/main.py: boolean literals, then `int`, then
`float`, then the literal string. -/
def coerce (value : List Char) : PyVal :=
  if pyLower value ∈ trueLits then .pybool true
  else if pyLower value ∈ falseLits then .pybool false
  else match pyIntParse value with
    | some n => .pyint n
    | none =>
      match pyFloatParse value with
      | some f => .pyfloat f
      | none => .pystr value

/-! ## Paths and argument parsing (`parse_args`, src/main.py lines 174-216)

Paths are plain strings.  `Path.expanduser` / `Path.resolve` are modelled for
POSIX paths without symbolic links (the tool never creates links and the
claims do not mention them): `resolve` makes the path absolute against the
current working directory and eliminates `.`, `..` and duplicate slashes. -/

/-- Python `s.split(sep)` for a one-character separator. -/
def splitChar (sep : Char) : List Char → List (List Char)
  | [] => [[]]
  | c :: r =>
    let rest := splitChar sep r
    if c = sep then [] :: rest
    else
      match rest with
      | [] => [[c]]
      | h :: t => (c :: h) :: t

/-- Join path components with `/`. -/
def joinSlash : List (List Char) → List Char
  | [] => []
  | [p] => p
  | p :: ps => p ++ '/' :: joinSlash ps

/-- `str(PurePosixPath(s))`: drop empty and `.` components, keep a root of
`/` (or the special double-slash root), and print `.` for an empty path. -/
def pyPathStr (s : List Char) : List Char :=
  let root : List Char :=
    if s.take 2 = pstr "//" ∧ s.take 3 ≠ pstr "///" then pstr "//"
    else if s.take 1 = pstr "/" then pstr "/" else []
  let parts := (splitChar '/' s).filter (fun p => p ≠ [] ∧ p ≠ pstr ".")
  if root = [] ∧ parts = [] then pstr "." else root ++ joinSlash parts

/-- `Path.expanduser()`: replace a leading bare `~` component by the home
directory.  (`~user` forms look up another user's home and are outside the
model's scope; they are left unchanged.) -/
def pyExpanduser (home s : List Char) : List Char :=
  if s = pstr "~" then home
  else if s.take 2 = pstr "~/" then home ++ s.drop 1
  else s

/-- Eliminate `.`, `..` and empty components of an absolute path
(the accumulator holds the output components in reverse). -/
def resolveParts : List (List Char) → List (List Char) → List (List Char)
  | acc, [] => acc.reverse
  | acc, p :: ps =>
    if p = [] ∨ p = pstr "." then resolveParts acc ps
    else if p = pstr ".." then resolveParts acc.tail ps
    else resolveParts (p :: acc) ps

/-- `Path.resolve()` without symbolic links: absolutise against `cwd` and
normalise. -/
def pyResolve (cwd s : List Char) : List Char :=
  let full := if s.take 1 = pstr "/" then s else cwd ++ '/' :: s
  '/' :: joinSlash (resolveParts [] (splitChar '/' full))

/-- The environment `parse_args` reads: `INSTA_DL_DIR` (from the process
environment or a dotenv file, `none` when unset), the current working
directory and the home directory. -/
structure ArgEnv where
  instaDlDir : Option (List Char)
  cwd : List Char
  home : List Char

/-- How an invocation of `parse_args` can terminate the process. -/
inductive ParseErr where
  | optMissingValue   -- "-o requires a directory argument", exit 1
  | usage             -- usage text printed, exit 1
  | badMaxLen         -- uncaught ValueError from `int(n)`
deriving DecidableEq, Repr

/-- Successful result of `parse_args`. -/
structure ParsedArgs where
  url : List Char
  maxLen : Int
  outputDir : List Char
  overrides : List (List Char × PyVal)
deriving DecidableEq, Repr

/-- Pull out the first `-o DIR` pair (src/main.py lines 181-187). -/
def stripOFlag (argv : List (List Char)) :
    Except ParseErr (Option (List Char) × List (List Char)) :=
  if pstr "-o" ∈ argv then
    let idx := argv.indexOf (pstr "-o")
    if idx + 1 < argv.length then
      .ok (some (argv.getD (idx + 1) []), argv.take idx ++ argv.drop (idx + 2))
    else .error .optMissingValue
  else .ok (none, argv)

/-- Python dict assignment `d[k] = v`: update in place, else append. -/
def dictUpsert (k : List Char) (v : PyVal) :
    List (List Char × PyVal) → List (List Char × PyVal)
  | [] => [(k, v)]
  | (k', v') :: t => if k' = k then (k, v) :: t else (k', v') :: dictUpsert k v t

/-- `l.startswith(pre)` for lists. -/
def startsWithList (pre l : List Char) : Bool := l.take pre.length == pre

/-- Python `a.split("=", 1)` as a pair. -/
def splitEqOnce (a : List Char) : List Char × List Char :=
  (a.takeWhile (fun c => c != '='), (a.dropWhile (fun c => c != '=')).tail)

/-- Separate `key=value` overrides from positional tokens
(src/main.py lines 189-197). -/
def splitOverrides (args : List (List Char)) :
    List (List Char) × List (List Char × PyVal) :=
  args.foldl (fun acc a =>
    if '=' ∈ a ∧ startsWithList (pstr "http") a = false then
      (acc.1, dictUpsert (splitEqOnce a).1 (coerce (splitEqOnce a).2) acc.2)
    else (acc.1 ++ [a], acc.2)) ([], [])

/-- Output-directory fallback when `-o` is absent or its value is the empty
string: `Path(config("INSTA_DL_DIR", default=""))`, replaced by the current
working directory when its string form is `.` (which covers the unset
case, `Path("")` printing as `.`). -/
def envFallbackBase (env : ArgEnv) : List Char :=
  let e := env.instaDlDir.getD []
  if pyPathStr e = pstr "." then env.cwd else e

/-- Assemble the result of `parse_args`, resolving the output directory. -/
def finishParse (env : ArgEnv) (odir : Option (List Char)) (u : List Char)
    (k : Int) (ov : List (List Char × PyVal)) : ParsedArgs :=
  let base :=
    match odir with
    | some d => if d ≠ [] then d else envFallbackBase env
    | none => envFallbackBase env
  ⟨u, k, pyResolve env.cwd (pyExpanduser env.home base), ov⟩

/-- `parse_args()` from src/main.py: extract `-o`, split off overrides,
demand one or two positional tokens, resolve the output directory. -/
def parse_args (env : ArgEnv) (argv : List (List Char)) : Except ParseErr ParsedArgs :=
  match stripOFlag argv with
  | .error e => .error e
  | .ok (odir, args) =>
    match (splitOverrides args).1 with
    | [u] => .ok (finishParse env odir u 70 (splitOverrides args).2)
    | [u, n] =>
      match pyIntParse n with
      | none => .error .badMaxLen
      | some k => .ok (finishParse env odir u k (splitOverrides args).2)
    | _ => .error .usage

/-! ## URL normalisation (`clean_url` / `extract_shortcode`, src/main.py 103-115)

`clean_url` delegates to `urllib.parse.urlparse` / `urlunparse`; the
relevant parts of CPython's `urllib/parse.py` are embedded below
(`urlsplit`, `_splitnetloc`, `_splitparams`, `urlunsplit`, and the
scheme-classification tables they read).  The non-ASCII netloc check
`_checknetloc` (which can raise for NFKC-expanding characters) is outside
the model's scope; the IPv6 bracket `ValueError` is modelled as the error
case. -/

/-- Index of the first occurrence of a character, `url.find(c)`. -/
def idxOf? (c : Char) : List Char → Option Nat
  | [] => none
  | d :: t => if d = c then some 0 else (idxOf? c t).map (· + 1)

/-- Index of the last occurrence, `url.rfind(c)`. -/
def rIdxOf? (c : Char) (l : List Char) : Option Nat :=
  (idxOf? c l.reverse).map (fun i => l.length - 1 - i)

/-- `url.find(c, start)`. -/
def idxOfFrom? (c : Char) (start : Nat) (l : List Char) : Option Nat :=
  (idxOf? c (l.drop start)).map (· + start)

/-- `scheme_chars` from urllib.parse. -/
def schemeChars : List Char :=
  pstr "abcdefghijklmnopqrstuvwxyzABCDEFGHIJKLMNOPQRSTUVWXYZ0123456789+-."

def isAsciiAlpha (c : Char) : Bool :=
  ('a' ≤ c && c ≤ 'z') || ('A' ≤ c && c ≤ 'Z')

/-- `_UNSAFE_URL_BYTES_TO_REMOVE`: tab, CR and LF are deleted up front. -/
def removeUnsafeUrlBytes (l : List Char) : List Char :=
  l.filter (fun c => !(c == '\t' || c == '\r' || c == '\n'))

/-- Result of `urlsplit`. -/
structure SplitParts where
  scheme : List Char
  netloc : List Char
  path : List Char
  query : List Char
  fragment : List Char
deriving DecidableEq, Repr

/-- Result of `urlparse`. -/
structure UrlParts where
  scheme : List Char
  netloc : List Char
  path : List Char
  params : List Char
  query : List Char
  fragment : List Char
deriving DecidableEq, Repr

/-- `urllib.parse.urlsplit` (default arguments, string input). -/
def urlsplitModel (url0 : List Char) : Except Unit SplitParts :=
  let url1 := removeUnsafeUrlBytes url0
  let su : List Char × List Char :=
    match idxOf? ':' url1 with
    | some i =>
      if 0 < i ∧ url1.head?.elim false isAsciiAlpha = true ∧
          (url1.take i).all (fun c => schemeChars.contains c) = true then
        (pyLower (url1.take i), url1.drop (i + 1))
      else ([], url1)
    | none => ([], url1)
  let nr : List Char × List Char :=
    if su.2.take 2 = pstr "//" then
      let after := su.2.drop 2
      let nl := after.takeWhile (fun c => !(c == '/' || c == '?' || c == '#'))
      (nl, after.drop nl.length)
    else ([], su.2)
  if (nr.1.contains '[' != nr.1.contains ']') = true then .error ()
  else
    let uf : List Char × List Char :=
      if '#' ∈ nr.2 then
        (nr.2.takeWhile (fun c => c != '#'), (nr.2.dropWhile (fun c => c != '#')).tail)
      else (nr.2, [])
    let uq : List Char × List Char :=
      if '?' ∈ uf.1 then
        (uf.1.takeWhile (fun c => c != '?'), (uf.1.dropWhile (fun c => c != '?')).tail)
      else (uf.1, [])
    .ok ⟨su.1, nr.1, uq.1, uq.2, uf.2⟩

/-- `uses_params` from urllib.parse. -/
def usesParams : List (List Char) :=
  [[], pstr "ftp", pstr "hdl", pstr "prospero", pstr "http", pstr "imap",
   pstr "https", pstr "shttp", pstr "rtsp", pstr "rtspu", pstr "sip",
   pstr "sips", pstr "mms", pstr "sftp", pstr "tel"]

/-- `uses_netloc` from urllib.parse. -/
def usesNetloc : List (List Char) :=
  [[], pstr "ftp", pstr "http", pstr "gopher", pstr "nntp", pstr "telnet",
   pstr "imap", pstr "wais", pstr "file", pstr "mms", pstr "https",
   pstr "shttp", pstr "snews", pstr "prospero", pstr "rtsp", pstr "rtspu",
   pstr "rsync", pstr "svn", pstr "svn+ssh", pstr "sftp", pstr "nfs",
   pstr "git", pstr "git+ssh", pstr "ws", pstr "wss"]

/-- `_splitparams` from urllib.parse. -/
def splitParams (path : List Char) : List Char × List Char :=
  if '/' ∈ path then
    match rIdxOf? '/' path with
    | some j =>
      match idxOfFrom? ';' j path with
      | some i => (path.take i, path.drop (i + 1))
      | none => (path, [])
    | none => (path, [])
  else
    match idxOf? ';' path with
    | some i => (path.take i, path.drop (i + 1))
    | none => (path, [])

/-- `urllib.parse.urlparse` (default arguments). -/
def urlparseModel (url : List Char) : Except Unit UrlParts :=
  match urlsplitModel url with
  | .error e => .error e
  | .ok sp =>
    if sp.scheme ∈ usesParams ∧ ';' ∈ sp.path then
      let pp := splitParams sp.path
      .ok ⟨sp.scheme, sp.netloc, pp.1, pp.2, sp.query, sp.fragment⟩
    else .ok ⟨sp.scheme, sp.netloc, sp.path, [], sp.query, sp.fragment⟩

/-- `urllib.parse.urlunsplit`. -/
def urlunsplitModel (scheme netloc path query fragment : List Char) : List Char :=
  let u1 :=
    if netloc ≠ [] ∨ (scheme ≠ [] ∧ scheme ∈ usesNetloc ∧ path.take 2 ≠ pstr "//") then
      (let u2 := if path ≠ [] ∧ path.take 1 ≠ pstr "/" then '/' :: path else path
       pstr "//" ++ netloc ++ u2)
    else path
  let u3 := if scheme ≠ [] then scheme ++ ':' :: u1 else u1
  let u4 := if query ≠ [] then u3 ++ '?' :: query else u3
  if fragment ≠ [] then u4 ++ '#' :: fragment else u4

/-- `urllib.parse.urlunparse`. -/
def urlunparseModel (p : UrlParts) : List Char :=
  let u := if p.params ≠ [] then p.path ++ ';' :: p.params else p.path
  urlunsplitModel p.scheme p.netloc u p.query p.fragment

/-- `clean_url(url)` from src/main.py: drop query and fragment, reassemble.
The error case is the uncaught `ValueError` from `urlparse`. -/
def clean_url (url : List Char) : Except Unit (List Char) :=
  match urlparseModel url with
  | .error e => .error e
  | .ok p => .ok (urlunparseModel { p with query := [], fragment := [] })

/-- One attempt of the regex `/(reel|p)/([^/?]+)` at the head of the string:
a literal `/`, then `reel/` or `p/`, then a nonempty maximal run of
characters other than `/` and `?` (group 2). -/
def shortcodeAt (l : List Char) : Option (List Char) :=
  match l with
  | '/' :: rest =>
    let afterTag : Option (List Char) :=
      if rest.take 5 = pstr "reel/" then some (rest.drop 5)
      else if rest.take 2 = pstr "p/" then some (rest.drop 2)
      else none
    match afterTag with
    | none => none
    | some r =>
      let code := r.takeWhile (fun c => !(c == '/' || c == '?'))
      if code = [] then none else some code
  | _ => none

/-- `re.search`: the leftmost position where the pattern matches. -/
def searchShortcode : List Char → Option (List Char)
  | [] => none
  | c :: rest =>
    match shortcodeAt (c :: rest) with
    | some code => some code
    | none => searchShortcode rest

/-- `extract_shortcode(url)` from src/main.py; `none` models the fatal
"could not extract shortcode" exit. -/
def extract_shortcode (url : List Char) : Option (List Char) :=
  searchShortcode url

/-! ## Session bootstrap (`init_session`, src/main.py lines 54-87)

The external effects (session files on disk, `test_login` network pings,
`browser_cookie3`) are an explicit environment record. -/

/-- Environment read by `init_session`: the username of the first
`session-*` file on disk (as `load_session` finds it), whether
`test_login()` validates that session, which attributes `browser_cookie3`
exposes, and the username `test_login()` reports after cookie injection
(per browser, `none` for no active session). -/
structure InitEnv where
  diskSession : Option (List Char)
  existingValid : Bool
  hasCookieFn : List Char → Bool
  cookieLogin : List Char → Option (List Char)

/-- `SUPPORTED_BROWSERS` from src/main.py. -/
def SUPPORTED_BROWSERS : List (List Char) :=
  [pstr "arc", pstr "brave", pstr "chrome", pstr "chromium", pstr "edge",
   pstr "firefox", pstr "librewolf", pstr "opera", pstr "opera_gx",
   pstr "safari", pstr "vivaldi"]

/-- How `init_session` terminates. -/
inductive InitResult where
  | alreadyExists (user : List Char)   -- "Session already exists", return (exit 0)
  | unsupportedBrowser                 -- prints the supported set, exit 1
  | noCookieFn                         -- browser_cookie3 lacks the attribute, exit 1
  | noActiveSession                    -- cookie jar has no logged-in user, exit 1
  | saved (user : List Char)           -- session persisted, exit 0
deriving DecidableEq, Repr

/-- The part of `init_session` after the existing-session check. -/
def initSessionFresh (env : InitEnv) (browser : List Char) : InitResult :=
  if browser ∉ SUPPORTED_BROWSERS then .unsupportedBrowser
  else if env.hasCookieFn browser = false then .noCookieFn
  else
    match env.cookieLogin browser with
    | some u => if u ≠ [] then .saved u else .noActiveSession
    | none => .noActiveSession

/-- `init_session(browser)` from src/main.py: first look for an existing
valid session (`load_session` + `test_login`, both truthy), only then
validate the browser name and import cookies. -/
def init_session (env : InitEnv) (browser : List Char) : InitResult :=
  match env.diskSession with
  | some u =>
    if u ≠ [] ∧ env.existingValid = true then .alreadyExists u
    else initSessionFresh env browser
  | none => initSessionFresh env browser

/-! ## The download log (`logged_shortcodes` / `append_log`, src/main.py 118-147)

The log file is a string (`downloads.jsonl` content); `append_log` writes
one `json.dumps(entry, ensure_ascii=False)` line.  The JSON
serialiser/parser below model CPython's `json` module on the flat
string/number/null objects this program writes; nested containers,
exponent-formatted floats and `\uXXXX` surrogate pairs are outside the
model's scope (the log writer never produces them). -/

/-- Lowercase hex digit, as in Python's `'\\u%04x'`. -/
def hexDigit (n : Nat) : Char :=
  if n < 10 then Char.ofNat (48 + n) else Char.ofNat (87 + n)

/-- `json.dumps` escaping of one character with `ensure_ascii=False`:
only `"`, `\\` and control characters below 0x20 are escaped. -/
def escapeJsonChar (c : Char) : List Char :=
  if c = '"' then pstr "\\\""
  else if c = '\\' then pstr "\\\\"
  else if c = '\n' then pstr "\\n"
  else if c = '\r' then pstr "\\r"
  else if c = '\t' then pstr "\\t"
  else if c = '\x08' then pstr "\\b"
  else if c = '\x0c' then pstr "\\f"
  else if c.toNat < 32 then pstr "\\u00" ++ [hexDigit (c.toNat / 16), hexDigit (c.toNat % 16)]
  else [c]

def escapeJsonString (s : List Char) : List Char :=
  (s.map escapeJsonChar).flatten

/-- A serialised JSON string literal. -/
def jstrDump (s : List Char) : List Char := '"' :: escapeJsonString s ++ ['"']

/-- Decimal digits of a natural number, with structural fuel (`n + 1`
always suffices) so that the kernel can evaluate it. -/
def natToDigitsAux : Nat → Nat → List Char
  | 0, _ => []
  | fuel + 1, n =>
    if n < 10 then [Char.ofNat (48 + n)]
    else natToDigitsAux fuel (n / 10) ++ [Char.ofNat (48 + n % 10)]

/-- Decimal digits of a natural number. -/
def natToDigits (n : Nat) : List Char := natToDigitsAux (n + 1) n

/-- `str(n)` for a Python int. -/
def intToDigits (n : Int) : List Char :=
  if n < 0 then '-' :: natToDigits n.natAbs else natToDigits n.toNat

/-- A JSON scalar value.  `jdec m d` is the finite float `m / 10^d`,
written with exactly `d` digits after the decimal point (the plain-decimal
output of `repr(float)`). -/
inductive JVal where
  | jnull
  | jbool (b : Bool)
  | jint (n : Int)
  | jdec (m : Int) (d : Nat)
  | jstr (s : List Char)
deriving DecidableEq, Repr

/-- Serialise the decimal `m / 10^d` with `d` fractional digits. -/
def decDump (m : Int) (d : Nat) : List Char :=
  let ds := natToDigits m.natAbs
  let ds := if ds.length < d + 1 then List.replicate (d + 1 - ds.length) '0' ++ ds else ds
  let sign : List Char := if m < 0 then ['-'] else []
  sign ++ ds.take (ds.length - d) ++ '.' :: ds.drop (ds.length - d)

/-- `json.dumps` of one scalar. -/
def jdump : JVal → List Char
  | .jnull => pstr "null"
  | .jbool true => pstr "true"
  | .jbool false => pstr "false"
  | .jint n => intToDigits n
  | .jdec m d => decDump m d
  | .jstr s => jstrDump s

/-- `json.dumps` of the pairs of a dict, with the default `", "` and
`": "` separators. -/
def dumpPairs : List (List Char × JVal) → List Char
  | [] => []
  | [(k, v)] => jstrDump k ++ pstr ": " ++ jdump v
  | (k, v) :: t => jstrDump k ++ pstr ": " ++ jdump v ++ pstr ", " ++ dumpPairs t

/-- `json.dumps` of a dict. -/
def dumpObj (ps : List (List Char × JVal)) : List Char :=
  '\x7b' :: dumpPairs ps ++ ['\x7d']

def jsonWs (c : Char) : Bool := c == ' ' || c == '\t' || c == '\n' || c == '\r'

def skipWs (l : List Char) : List Char := l.dropWhile jsonWs

def hexVal? (c : Char) : Option Nat :=
  if '0' ≤ c ∧ c ≤ '9' then some (c.toNat - 48)
  else if 'a' ≤ c ∧ c ≤ 'f' then some (c.toNat - 87)
  else if 'A' ≤ c ∧ c ≤ 'F' then some (c.toNat - 55)
  else none

/-- Parse the body of a JSON string literal (after the opening quote),
returning the decoded content and the rest after the closing quote. -/
def parseJsonStringBody : List Char → Option (List Char × List Char)
  | [] => none
  | c :: rest =>
    if c = '"' then some ([], rest)
    else if c = '\\' then
      match rest with
      | [] => none
      | e :: r =>
        if e = 'n' then (parseJsonStringBody r).map (fun p => ('\n' :: p.1, p.2))
        else if e = 't' then (parseJsonStringBody r).map (fun p => ('\t' :: p.1, p.2))
        else if e = 'r' then (parseJsonStringBody r).map (fun p => ('\r' :: p.1, p.2))
        else if e = 'b' then (parseJsonStringBody r).map (fun p => ('\x08' :: p.1, p.2))
        else if e = 'f' then (parseJsonStringBody r).map (fun p => ('\x0c' :: p.1, p.2))
        else if e = '"' then (parseJsonStringBody r).map (fun p => ('"' :: p.1, p.2))
        else if e = '\\' then (parseJsonStringBody r).map (fun p => ('\\' :: p.1, p.2))
        else if e = '/' then (parseJsonStringBody r).map (fun p => ('/' :: p.1, p.2))
        else if e = 'u' then
          match r with
          | h1 :: h2 :: h3 :: h4 :: r2 =>
            (hexVal? h1).bind (fun a =>
              (hexVal? h2).bind (fun b =>
                (hexVal? h3).bind (fun c' =>
                  (hexVal? h4).bind (fun d =>
                    (parseJsonStringBody r2).map
                      (fun p => (Char.ofNat (4096 * a + 256 * b + 16 * c' + d) :: p.1, p.2))))))
          | _ => none
        else none
    else if c.toNat < 32 then none
    else (parseJsonStringBody rest).map (fun p => (c :: p.1, p.2))

/-- Parse a JSON number (integer or plain decimal; the log writer emits no
exponent notation, which is outside the model's scope). -/
def parseJsonNumber (l : List Char) : Option (JVal × List Char) :=
  let r := if l.take 1 = pstr "-" then l.tail else l
  let ip := r.takeWhile isAsciiDigit
  let r2 := r.drop ip.length
  if ip = [] then none
  else if r2.take 1 = pstr "." then
    let fp := r2.tail.takeWhile isAsciiDigit
    if fp = [] then none
    else
      some (.jdec (if l.take 1 = pstr "-"
                   then -((digitsVal ip * 10 ^ fp.length + digitsVal fp : Nat) : Int)
                   else ((digitsVal ip * 10 ^ fp.length + digitsVal fp : Nat) : Int))
             fp.length,
            r2.tail.drop fp.length)
  else some (.jint (if l.take 1 = pstr "-" then -(digitsVal ip : Int)
                    else (digitsVal ip : Int)), r2)

/-- Parse one JSON scalar. -/
def parseJsonScalar (l : List Char) : Option (JVal × List Char) :=
  if l.take 1 = pstr "\"" then (parseJsonStringBody l.tail).map (fun p => (.jstr p.1, p.2))
  else if l.take 4 = pstr "null" then some (.jnull, l.drop 4)
  else if l.take 4 = pstr "true" then some (.jbool true, l.drop 4)
  else if l.take 5 = pstr "false" then some (.jbool false, l.drop 5)
  else parseJsonNumber l

/-- Parse the `"key": value` pairs of a flat JSON object, starting after
the opening brace and consuming the closing one.  `fuel` bounds the number
of pairs. -/
def parseJsonPairs (fuel : Nat) (l : List Char) :
    Option (List (List Char × JVal) × List Char) :=
  match fuel with
  | 0 => none
  | f + 1 =>
    let l1 := skipWs l
    if l1.take 1 = pstr "\"" then
      match parseJsonStringBody l1.tail with
      | none => none
      | some (k, r2) =>
        let r2' := skipWs r2
        if r2'.take 1 = pstr ":" then
          match parseJsonScalar (skipWs r2'.tail) with
          | none => none
          | some (v, r4) =>
            let r4' := skipWs r4
            if r4'.take 1 = pstr "," then
              match parseJsonPairs f r4'.tail with
              | none => none
              | some (ps, r6) => some ((k, v) :: ps, r6)
            else if r4'.take 1 = pstr "\x7d" then some ([(k, v)], r4'.tail)
            else none
        else none
    else none

/-- `json.loads` on one log line (flat-object scope; `none` models a raised
`JSONDecodeError`, or the `TypeError` from subscripting a non-dict). -/
def jloads (l : List Char) : Option (List (List Char × JVal)) :=
  let l1 := skipWs l
  if l1.take 1 = pstr "\x7b" then
    if (skipWs l1.tail).take 1 = pstr "\x7d" then
      (if skipWs (skipWs l1.tail).tail = [] then some [] else none)
    else
      match parseJsonPairs (l.length + 1) l1.tail with
      | none => none
      | some (ps, rest) => if skipWs rest = [] then some ps else none
  else none

/-- Dict lookup with Python semantics (the last duplicate key wins). -/
def jlookup (k : List Char) : List (List Char × JVal) → Option JVal
  | [] => none
  | (k', v) :: t =>
    match jlookup k t with
    | some v' => some v'
    | none => if k' = k then some v else none

/-- The line terminators of Python's `str.splitlines()`. -/
def isLineBreak (c : Char) : Bool :=
  c == '\n' || c == '\r' || c == '\x0b' || c == '\x0c' || c == '\x1c' ||
  c == '\x1d' || c == '\x1e' || c == '\x85' || c == '\u2028' || c == '\u2029'

def splitlinesAux : List Char → List Char → List (List Char)
  | [], acc => if acc = [] then [] else [acc.reverse]
  | '\r' :: '\n' :: rest, acc => acc.reverse :: splitlinesAux rest []
  | c :: rest, acc =>
    if isLineBreak c then acc.reverse :: splitlinesAux rest []
    else splitlinesAux rest (c :: acc)

/-- Python `str.splitlines()`. -/
def pySplitlines (l : List Char) : List (List Char) := splitlinesAux l []

/-- The post attributes `append_log` serialises and `main` uses, as
delivered by the external client library.  `videoDuration` is a finite
float as a scaled decimal `(m, d) = m / 10^d`. -/
structure PostData where
  shortcode : List Char
  caption : Option (List Char)
  profile : List Char
  dateIso : List Char
  dateYear : Nat
  typename : List Char
  likes : Int
  videoViewCount : Option Int
  videoDuration : Option (Int × Nat)
deriving DecidableEq, Repr

def optStrJ : Option (List Char) → JVal
  | none => .jnull
  | some s => .jstr s

def optIntJ : Option Int → JVal
  | none => .jnull
  | some n => .jint n

def optDecJ : Option (Int × Nat) → JVal
  | none => .jnull
  | some p => .jdec p.1 p.2

/-- The `entry` dict of `append_log`, in insertion order. -/
def logEntryPairs (post : PostData) (url title now : List Char) :
    List (List Char × JVal) :=
  [(pstr "shortcode", .jstr post.shortcode),
   (pstr "url", .jstr url),
   (pstr "title", .jstr title),
   (pstr "caption", optStrJ post.caption),
   (pstr "profile", .jstr post.profile),
   (pstr "date_posted", .jstr post.dateIso),
   (pstr "typename", .jstr post.typename),
   (pstr "likes", .jint post.likes),
   (pstr "video_view_count", optIntJ post.videoViewCount),
   (pstr "video_duration", optDecJ post.videoDuration),
   (pstr "downloaded_at", .jstr now)]

/-- The JSON line `append_log` writes (without the trailing newline). -/
def logLine (post : PostData) (url title now : List Char) : List Char :=
  dumpObj (logEntryPairs post url title now)

/-- `append_log`: the new content of `downloads.jsonl` (`none` = the file
did not exist; appending creates it). -/
def append_log (file : Option (List Char)) (post : PostData)
    (url title now : List Char) : List Char :=
  file.getD [] ++ logLine post url title now ++ ['\n']

/-- `json.loads(line)["shortcode"]`; `none` models a raised exception. -/
def lineShortcode (line : List Char) : Option JVal :=
  match jloads line with
  | none => none
  | some ps => jlookup (pstr "shortcode") ps

/-- `logged_shortcodes`: the set of recorded shortcode values, empty for a
missing file; `.error` models an exception escaping from `json.loads` (or
the subscript) on some nonblank line. -/
def logged_shortcodes (file : Option (List Char)) : Except Unit (Finset JVal) :=
  match file with
  | none => .ok ∅
  | some txt =>
    (pySplitlines txt).foldlM (fun acc line =>
      if pyStripWs line = [] then Except.ok acc
      else
        match lineShortcode line with
        | none => Except.error ()
        | some v => Except.ok (insert v acc)) ∅

/-! ## The download workflow (`main`, src/main.py lines 219-275)

The body of `main` after `parse_args`, as a function of the parsed values,
an environment (session, the external client's responses, the clock) and
the filesystem state, returning the trace of its effects, the exit status
and the new filesystem state.  `Post.from_shortcode` builds the post object
from the requested shortcode, so the fetched post's `shortcode` attribute
is the argument itself; the rest of the post's attributes come from the
environment.  The media files `download_post` writes are abstracted as the
sorted list of filename suffixes the later `glob(f"{shortcode}*")` sees. -/

structure MainEnv where
  sessionUser : Option (List Char)
  postData : List Char → PostData
  mediaSuffixes : List Char → List (List Char)
  now : List Char

/-- `instaloader.Post.from_shortcode(L.context, shortcode)`. -/
def fetchPost (env : MainEnv) (sc : List Char) : PostData :=
  { env.postData sc with shortcode := sc }

/-- Filesystem state the workflow reads and writes: the `downloads.jsonl`
content per profile directory. -/
structure FS where
  logFiles : List Char → Option (List Char)

/-- Externally visible effects of one invocation, in order. -/
inductive Event where
  | printed (msg : List Char)
  | fetchedPost (sc : List Char)       -- Post.from_shortcode: a network round trip
  | madeDir (path : List Char)
  | downloadedPost (sc : List Char)    -- L.download_post: network + media files written
  | renamedFile (src dst : List Char)
  | appendedLog (dir line : List Char)
deriving DecidableEq, Repr

inductive ExitStatus where
  | success
  | failure
deriving DecidableEq, Repr

structure RunResult where
  events : List Event
  status : ExitStatus
  fs : FS

/-- Write a profile directory's log file. -/
def updateLog (fs : FS) (dir content : List Char) : FS :=
  ⟨fun p => if p = dir then some content else fs.logFiles p⟩

/-- `Path` join `a / b` for a relative, nonempty `b` (the only use here). -/
def joinPath (a b : List Char) : List Char := a ++ '/' :: b

/-- An event writes to the filesystem (directory creation, media download,
rename, log append). -/
def isWriteEvent : Event → Bool
  | .madeDir _ => true
  | .downloadedPost _ => true
  | .renamedFile _ _ => true
  | .appendedLog _ _ => true
  | _ => false

/-- An event is network activity (the metadata fetch or the media
download). -/
def isNetworkEvent : Event → Bool
  | .fetchedPost _ => true
  | .downloadedPost _ => true
  | _ => false

/-- The body of `main`'s download path (src/main.py lines 229-275), given
the values `parse_args` returned. -/
def runDownload (env : MainEnv) (fs : FS) (rawUrl : List Char) (maxLen : Int)
    (base : List Char) : RunResult :=
  match clean_url rawUrl with
  | .error _ => ⟨[], .failure, fs⟩
  | .ok url =>
    match extract_shortcode url with
    | none =>
      ⟨[.printed (pstr "Error: could not extract shortcode from: " ++ url)], .failure, fs⟩
    | some sc =>
      match env.sessionUser with
      | none =>
        ⟨[.printed (pstr "No saved session found. Run:  insta-dl init [browser]")], .failure, fs⟩
      | some uname =>
        if uname = [] then
          ⟨[.printed (pstr "No saved session found. Run:  insta-dl init [browser]")], .failure, fs⟩
        else
          let ev0 : List Event :=
            [.printed (pstr "Fetching " ++ sc ++ pstr " (session: " ++ uname ++ pstr ")..."),
             .fetchedPost sc]
          let post := fetchPost env sc
          let profileDir := joinPath base post.profile
          match logged_shortcodes (fs.logFiles profileDir) with
          | .error _ => ⟨ev0, .failure, fs⟩
          | .ok codes =>
            if JVal.jstr sc ∈ codes then
              ⟨ev0 ++ [.printed (pstr "Already downloaded: " ++ sc)], .success, fs⟩
            else
              let ev1 := ev0 ++ [.madeDir base, .downloadedPost sc]
              let capFirst := pyStripWs ((splitChar '\n' (post.caption.getD [])).headD [])
              let title := sanitize capFirst maxLen
              let postDir := joinPath profileDir (natToDigits post.dateYear)
              if title = [] then
                let line := logLine post url sc env.now
                ⟨ev1 ++ [.appendedLog profileDir line,
                         .printed (pstr "Saved: " ++ joinPath postDir sc)],
                 .success,
                 updateLog fs profileDir ((fs.logFiles profileDir).getD [] ++ line ++ ['\n'])⟩
              else
                let renames := (env.mediaSuffixes sc).map (fun suf =>
                  Event.renamedFile (joinPath postDir (sc ++ suf)) (joinPath postDir (title ++ suf)))
                let line := logLine post url title env.now
                ⟨ev1 ++ renames ++ [.appendedLog profileDir line,
                         .printed (pstr "Saved: " ++ joinPath postDir title)],
                 .success,
                 updateLog fs profileDir ((fs.logFiles profileDir).getD [] ++ line ++ ['\n'])⟩

/-! ## Lemmas about the sanitiser -/

theorem sanitize_eq (name : List Char) (maxLen : Int) :
    sanitize name maxLen =
      pyRstripDotSpace
        ((if (name.length : Int) > maxLen then rsplitSpaceHead (pySliceTo name maxLen)
          else name).map replaceHostile) := rfl

theorem length_pyRstripDotSpace_le (l : List Char) :
    (pyRstripDotSpace l).length ≤ l.length := by
  unfold pyRstripDotSpace
  rw [List.length_reverse]
  exact le_trans (List.dropWhile_sublist _).length_le (le_of_eq (List.length_reverse _))

theorem mem_of_mem_pyRstripDotSpace {c : Char} {l : List Char}
    (h : c ∈ pyRstripDotSpace l) : c ∈ l := by
  unfold pyRstripDotSpace at h
  rw [List.mem_reverse] at h
  have h2 := (List.dropWhile_sublist (l := l.reverse)
    (p := fun c => c == '.' || c == ' ')).mem h
  rwa [List.mem_reverse] at h2

theorem head?_dropWhile_false {p : Char → Bool} :
    ∀ {l : List Char} {x : Char}, (l.dropWhile p).head? = some x → p x = false := by
  intro l
  induction l with
  | nil => intro x h; simp [List.dropWhile] at h
  | cons a t ih =>
    intro x h
    rw [List.dropWhile_cons] at h
    by_cases hp : p a
    · rw [if_pos hp] at h; exact ih h
    · rw [if_neg hp] at h
      simp only [List.head?_cons, Option.some.injEq] at h
      subst h
      simpa using hp

theorem getLast?_pyRstripDotSpace (l : List Char) :
    (pyRstripDotSpace l).getLast? ≠ some '.' ∧ (pyRstripDotSpace l).getLast? ≠ some ' ' := by
  unfold pyRstripDotSpace
  rw [List.getLast?_reverse]
  constructor <;> intro h <;> have h2 := head?_dropWhile_false h <;> simp at h2

theorem length_rsplitSpaceHead_le (l : List Char) :
    (rsplitSpaceHead l).length ≤ l.length := by
  unfold rsplitSpaceHead
  split
  · rw [List.length_reverse]
    have h1 : ((l.reverse.dropWhile (fun c => c != ' ')).tail).length ≤
        (l.reverse.dropWhile (fun c => c != ' ')).length := by
      rw [List.length_tail]; omega
    refine le_trans h1 (le_trans (List.dropWhile_sublist _).length_le ?_)
    rw [List.length_reverse]
  · exact le_refl _

theorem rsplitSpaceHead_no_space {l : List Char} (h : ' ' ∉ l) :
    rsplitSpaceHead l = l := if_neg h

theorem replaceHostile_not_hostile (c : Char) : replaceHostile c ∉ hostileChars := by
  unfold replaceHostile
  split
  · decide
  · assumption

theorem pySliceTo_natCast (l : List Char) (n : Nat) :
    pySliceTo l (n : Int) = l.take n := by
  unfold pySliceTo
  rw [if_pos (Int.natCast_nonneg n)]
  simp

/-- **C2** (amended).  For every `name` and every *nonnegative* `max_len`,
`sanitize(name, max_len)` returns at most `max_len` characters, none of
them in `/:*?"<>|\`, not ending in `.` or space; when `name` exceeds
`max_len` characters it is truncated to `max_len` and backtracked to the
last *space* (not general whitespace) boundary before the replacement and
trailing-strip.  (The claim's unrestricted `max_len` and its "whitespace"
reading fail on the code — see the counterexample.) -/
theorem sanitize_bounds (name : List Char) (maxLen : Nat) :
    (sanitize name (maxLen : Int)).length ≤ maxLen
  ∧ (∀ c ∈ sanitize name (maxLen : Int), c ∉ hostileChars)
  ∧ (sanitize name (maxLen : Int)).getLast? ≠ some '.'
  ∧ (sanitize name (maxLen : Int)).getLast? ≠ some ' '
  ∧ ((maxLen : Int) < (name.length : Int) →
      sanitize name (maxLen : Int) =
        pyRstripDotSpace ((rsplitSpaceHead (name.take maxLen)).map replaceHostile)) := by
  refine ⟨?_, ?_, ?_, ?_, ?_⟩
  · rw [sanitize_eq]
    refine le_trans (length_pyRstripDotSpace_le _) ?_
    rw [List.length_map]
    split
    · refine le_trans (length_rsplitSpaceHead_le _) ?_
      rw [pySliceTo_natCast]
      exact List.length_take_le _ _
    · next h =>
      push_neg at h
      exact_mod_cast h
  · intro c hc
    rw [sanitize_eq] at hc
    have hc' := mem_of_mem_pyRstripDotSpace hc
    rw [List.mem_map] at hc'
    obtain ⟨a, _, rfl⟩ := hc'
    exact replaceHostile_not_hostile a
  · rw [sanitize_eq]; exact (getLast?_pyRstripDotSpace _).1
  · rw [sanitize_eq]; exact (getLast?_pyRstripDotSpace _).2
  · intro h
    rw [sanitize_eq, if_pos h, pySliceTo_natCast]

/-- **C2** witness: the amended statement at `name = "ab cd"`, `max_len = 3`. -/
theorem sanitize_bounds_witness :
    (sanitize (pstr "ab cd") ((3 : Nat) : Int)).length ≤ 3 ∧
    sanitize (pstr "ab cd") ((3 : Nat) : Int) =
      pyRstripDotSpace ((rsplitSpaceHead ((pstr "ab cd").take 3)).map replaceHostile) :=
  ⟨(sanitize_bounds (pstr "ab cd") 3).1,
   (sanitize_bounds (pstr "ab cd") 3).2.2.2.2 (by decide)⟩

/-- **C2** counterexample to the claim as stated: with the (CLI-reachable)
negative `max_len = -1` the result `sanitize("ab", -1) = "a"` is longer
than `max_len`; and at `name = "ab\tcd"`, `max_len = 4` the code keeps
`"ab\tc"` while backtracking at the last *whitespace* boundary (the spec's
words) would give `"ab"`. -/
theorem sanitize_claim_counterexample :
    ¬ (((sanitize (pstr "ab") (-1)).length : Int) ≤ -1)
  ∧ sanitize (pstr "ab\tcd") 4 ≠ sanitizeSpecWhitespaceBacktrack (pstr "ab\tcd") 4 :=
  ⟨by decide, by decide⟩

/-- **C10**: when `name` is longer than `max_len` and the first `max_len`
characters contain no space, `sanitize` skips the backtracking: the result
is exactly those `max_len` characters with hostile characters replaced and
trailing dots/spaces stripped. -/
theorem sanitize_no_space_in_slice (name : List Char) (n : Nat)
    (hlen : (n : Int) < (name.length : Int)) (hsp : ' ' ∉ name.take n) :
    sanitize name (n : Int) = pyRstripDotSpace ((name.take n).map replaceHostile) := by
  rw [sanitize_eq, if_pos hlen, pySliceTo_natCast, rsplitSpaceHead_no_space hsp]

/-- **C10** witness at `name = "ab.cd"`, `max_len = 4`. -/
theorem sanitize_no_space_in_slice_witness :
    sanitize (pstr "ab.cd") ((4 : Nat) : Int) =
      pyRstripDotSpace (((pstr "ab.cd").take 4).map replaceHostile) :=
  sanitize_no_space_in_slice (pstr "ab.cd") 4 (by decide) (by decide)

/-! ## Lemmas about coercion -/

/-- **C4**: `coerce` tries the boolean literals (`true/1/yes`,
`false/0/no`, case-insensitively), then `int(value)`, then `float(value)`,
then falls back to the literal string, the first successful parse winning;
and the four concrete examples. -/
theorem coerce_parse_order (v : List Char) :
    (pyLower v ∈ trueLits → coerce v = .pybool true)
  ∧ (pyLower v ∈ falseLits → coerce v = .pybool false)
  ∧ (pyLower v ∉ trueLits → pyLower v ∉ falseLits →
      ∀ n, pyIntParse v = some n → coerce v = .pyint n)
  ∧ (pyLower v ∉ trueLits → pyLower v ∉ falseLits → pyIntParse v = none →
      ∀ f, pyFloatParse v = some f → coerce v = .pyfloat f)
  ∧ (pyLower v ∉ trueLits → pyLower v ∉ falseLits → pyIntParse v = none →
      pyFloatParse v = none → coerce v = .pystr v)
  ∧ coerce (pstr "true") = .pybool true
  ∧ coerce (pstr "42") = .pyint 42
  ∧ coerce (pstr "3.14") = .pyfloat (.finite (157 / 50))
  ∧ coerce (pstr "hello") = .pystr (pstr "hello") := by
  refine ⟨?_, ?_, ?_, ?_, ?_, by decide, by decide, ?_, by decide⟩
  · intro h; simp [coerce, h]
  · intro h
    have h2 : pyLower v ∉ trueLits := by
      have h3 := h
      simp only [falseLits, List.mem_cons, List.mem_nil_iff, or_false] at h3
      rcases h3 with h3 | h3 | h3 <;> rw [h3] <;> decide
    simp [coerce, h, h2]
  · intro h h' n hn; simp [coerce, h, h', hn]
  · intro h h' hn f hf; simp [coerce, h, h', hn, hf]
  · intro h h' hn hf; simp [coerce, h, h', hn, hf]
  · have h1 : coerce (pstr "3.14") = .pyfloat (.finite ((3 : ℚ) + (14 : ℚ) / 10 ^ 2)) := rfl
    rw [h1]
    norm_num

/-- **C4** witness: the int branch of the ordering at `v = "7"`
(not a boolean literal, parses as an integer). -/
theorem coerce_parse_order_witness : coerce (pstr "7") = PyVal.pyint 7 :=
  (coerce_parse_order (pstr "7")).2.2.1 (by decide) (by decide) 7 (by decide)

/-! ## Lemmas about paths and argument parsing -/

theorem splitChar_ne_nil (sep : Char) (l : List Char) : splitChar sep l ≠ [] := by
  cases l with
  | nil => simp [splitChar]
  | cons c t =>
    unfold splitChar
    by_cases h : c = sep
    · simp [h]
    · simp only [if_neg h]
      cases splitChar sep t <;> simp

theorem splitChar_cons_exists (sep c : Char) (t : List Char) (h : c ≠ sep) :
    ∃ h0 t0, splitChar sep t = h0 :: t0 ∧ splitChar sep (c :: t) = (c :: h0) :: t0 := by
  cases e : splitChar sep t with
  | nil => exact absurd e (splitChar_ne_nil sep t)
  | cons h0 t0 =>
    refine ⟨h0, t0, rfl, ?_⟩
    unfold splitChar
    rw [if_neg h, e]

theorem splitChar_cons_self (sep : Char) (t : List Char) :
    splitChar sep (sep :: t) = [] :: splitChar sep t := by
  simp [splitChar]

theorem splitChar_append_sep (sep : Char) (a b : List Char) :
    splitChar sep (a ++ sep :: b) = splitChar sep a ++ splitChar sep b := by
  induction a with
  | nil =>
    rw [List.nil_append, splitChar_cons_self]
    rfl
  | cons c t ih =>
    by_cases h : c = sep
    · rw [h, List.cons_append, splitChar_cons_self, splitChar_cons_self, ih]
      rfl
    · obtain ⟨h0, t0, e1, e2⟩ := splitChar_cons_exists sep c (t ++ sep :: b) h
      obtain ⟨h1, t1, e3, e4⟩ := splitChar_cons_exists sep c t h
      rw [List.cons_append, e2, e4]
      rw [ih, e3, List.cons_append] at e1
      injection e1 with e5 e6
      subst e5
      subst e6
      rfl

/-- A path component that `resolveParts` skips. -/
def skipComp (p : List Char) : Prop := p = [] ∨ p = pstr "."

theorem resolveParts_skip_all (acc : List (List Char)) (ys : List (List Char))
    (h : ∀ p ∈ ys, skipComp p) : resolveParts acc ys = acc.reverse := by
  induction ys generalizing acc with
  | nil => rfl
  | cons p t ih =>
    have hp : p = [] ∨ p = pstr "." := h p (by simp)
    unfold resolveParts
    rw [if_pos hp]
    exact ih acc (fun q hq => h q (by simp [hq]))

theorem resolveParts_append_skip (xs ys : List (List Char))
    (h : ∀ p ∈ ys, skipComp p) :
    ∀ acc, resolveParts acc (xs ++ ys) = resolveParts acc xs := by
  induction xs with
  | nil =>
    intro acc
    rw [List.nil_append]
    exact resolveParts_skip_all acc ys h
  | cons p t ih =>
    intro acc
    rw [List.cons_append]
    unfold resolveParts
    split
    · exact ih acc
    · split
      · exact ih acc.tail
      · exact ih (p :: acc)

theorem pyPathStr_dot {s : List Char} (h : pyPathStr s = pstr ".") :
    (splitChar '/' s).filter (fun p => p ≠ [] ∧ p ≠ pstr ".") = []
      ∧ s.take 1 ≠ pstr "/" := by
  simp only [pyPathStr] at h
  by_cases hA : s.take 2 = pstr "//" ∧ s.take 3 ≠ pstr "///"
  · exfalso
    rw [if_pos hA, if_neg (fun hx => absurd hx.1 (by decide))] at h
    have h0 := congrArg (fun l => l.head?) h
    simp [pstr] at h0
  · by_cases hB : s.take 1 = pstr "/"
    · exfalso
      rw [if_neg hA, if_pos hB, if_neg (fun hx => absurd hx.1 (by decide))] at h
      have h0 := congrArg (fun l => l.head?) h
      simp [pstr] at h0
    · rw [if_neg hA, if_neg hB] at h
      by_cases hp : (splitChar '/' s).filter (fun p => p ≠ [] ∧ p ≠ pstr ".") = []
      · exact ⟨hp, hB⟩
      · exfalso
        rw [if_neg (fun hx => hp hx.2), List.nil_append] at h
        cases hq : (splitChar '/' s).filter (fun p => p ≠ [] ∧ p ≠ pstr ".") with
        | nil => exact hp hq
        | cons q t =>
          have hqmem : q ∈ (splitChar '/' s).filter (fun p => p ≠ [] ∧ p ≠ pstr ".") := by
            rw [hq]; exact List.mem_cons_self q t
          have hq2 : ¬(q = []) ∧ ¬(q = pstr ".") := by
            have hf := List.of_mem_filter hqmem
            simpa using hf
          rw [hq] at h
          cases t with
          | nil => exact hq2.2 h
          | cons q2 t2 =>
            have hj : joinSlash (q :: q2 :: t2) = q ++ '/' :: joinSlash (q2 :: t2) := rfl
            rw [hj] at h
            have hlen := congrArg List.length h
            simp only [List.length_append, List.length_cons, pstr] at hlen
            cases q with
            | nil => exact hq2.1 rfl
            | cons a b =>
              simp only [List.length_cons, String.toList] at hlen
              simp at hlen
              omega

theorem pyExpanduser_of_head_ne (home s : List Char) (h : s.head? ≠ some '~') :
    pyExpanduser home s = s := by
  have h1 : s ≠ pstr "~" := by
    intro heq; subst heq; exact h rfl
  have h2 : s.take 2 ≠ pstr "~/" := by
    intro htake
    cases s with
    | nil => exact absurd htake (by decide)
    | cons c t =>
      apply h
      have hc2 : c = '~' := by
        have h3 := congrArg (fun l => l.head?) htake
        simpa [pstr] using h3
      rw [List.head?_cons, hc2]
  unfold pyExpanduser
  rw [if_neg h1, if_neg h2]

theorem skip_of_filter_nil {l : List (List Char)}
    (h : l.filter (fun p => p ≠ [] ∧ p ≠ pstr ".") = []) : ∀ p ∈ l, skipComp p := by
  intro p hp
  by_contra hbad
  have hmem : p ∈ l.filter (fun p => p ≠ [] ∧ p ≠ pstr ".") := by
    rw [List.mem_filter]
    refine ⟨hp, ?_⟩
    simp only [skipComp] at hbad
    push_neg at hbad
    simp [hbad.1, hbad.2]
  rw [h] at hmem
  exact absurd hmem (List.not_mem_nil p)

theorem pyPathStr_dot_head {s : List Char} (h : pyPathStr s = pstr ".") :
    s.head? ≠ some '~' := by
  intro hh
  cases s with
  | nil => simp at hh
  | cons c t =>
    simp only [List.head?_cons, Option.some.injEq] at hh
    subst hh
    have hall := skip_of_filter_nil (pyPathStr_dot h).1
    obtain ⟨h0, t0, _, e2⟩ := splitChar_cons_exists '/' '~' t (by decide)
    have hmem : ('~' :: h0) ∈ splitChar '/' ('~' :: t) := by rw [e2]; simp
    have hsk := hall _ hmem
    rcases hsk with h1 | h1
    · exact absurd h1 (by simp)
    · have h2 := congrArg (fun l => l.head?) h1
      simp [pstr] at h2

/-- The resolved output directory is unchanged by appending only `.`, empty
and slash components: the key step for the `INSTA_DL_DIR`-is-`.` case. -/
theorem pyResolve_of_pathStr_dot (cwd s : List Char)
    (hcwd : cwd.take 1 = pstr "/") (h : pyPathStr s = pstr ".") :
    pyResolve cwd s = pyResolve cwd cwd := by
  obtain ⟨hfil, hs⟩ := pyPathStr_dot h
  have hall := skip_of_filter_nil hfil
  simp only [pyResolve]
  rw [if_neg hs, if_pos hcwd, splitChar_append_sep, resolveParts_append_skip _ _ hall]

theorem abs_head_ne_tilde {cwd : List Char} (hcwd : cwd.take 1 = pstr "/") :
    cwd.head? ≠ some '~' := by
  cases hc : cwd with
  | nil => rw [hc] at hcwd; exact absurd hcwd (by decide)
  | cons c t =>
    rw [hc] at hcwd
    have hc2 : c = '/' := by
      have h3 := congrArg (fun l => l.head?) hcwd
      simpa [pstr] using h3
    rw [List.head?_cons, hc2]
    decide

/-- Whatever the positional outcome, a successful `parse_args` resolves the
output directory from the `-o` value (when nonempty) or the fallback. -/
theorem parse_args_outputDir_eq (env : ArgEnv) (argv : List (List Char))
    (odir : Option (List Char)) (args : List (List Char)) (r : ParsedArgs)
    (h1 : stripOFlag argv = .ok (odir, args))
    (hok : parse_args env argv = .ok r) :
    r.outputDir = pyResolve env.cwd (pyExpanduser env.home
      (odir.elim (envFallbackBase env)
        (fun d => if d ≠ [] then d else envFallbackBase env))) := by
  simp only [parse_args, h1] at hok
  rcases hpos : (splitOverrides args).1 with _ | ⟨u, _ | ⟨n, _ | _⟩⟩ <;>
    simp only [hpos] at hok
  · exact absurd hok (by simp)
  · injection hok with h2
    rw [← h2]
    cases odir <;> rfl
  · cases hint : pyIntParse n with
    | none => rw [hint] at hok; exact absurd hok (by simp)
    | some k =>
      rw [hint] at hok
      injection hok with h2
      rw [← h2]
      cases odir <;> rfl
  · exact absurd hok (by simp)

/-- **C5** (amended).  With a well-formed `-o DIR` pair whose value `DIR`
is *nonempty*, the resolved output directory is `DIR` tilde-expanded and
resolved, regardless of `INSTA_DL_DIR`; without `-o`, `INSTA_DL_DIR` is
used when set and otherwise the current working directory.  (For `-o ""`
the code's truthiness test falls back to the environment — see the
counterexample.) -/
theorem parse_args_output_dir (env : ArgEnv) (argv : List (List Char)) (r : ParsedArgs)
    (hok : parse_args env argv = .ok r) :
    (∀ DIR, pstr "-o" ∈ argv → argv.getD (argv.indexOf (pstr "-o") + 1) [] = DIR →
      DIR ≠ [] → r.outputDir = pyResolve env.cwd (pyExpanduser env.home DIR))
  ∧ (env.cwd.take 1 = pstr "/" → pstr "-o" ∉ argv →
      ((∀ s, env.instaDlDir = some s →
          r.outputDir = pyResolve env.cwd (pyExpanduser env.home s))
       ∧ (env.instaDlDir = none → r.outputDir = pyResolve env.cwd env.cwd))) := by
  constructor
  · intro DIR hmem hgetD hne
    have hlt : argv.indexOf (pstr "-o") + 1 < argv.length := by
      by_contra hlt
      have herr : parse_args env argv = .error .optMissingValue := by
        simp only [parse_args, stripOFlag, if_pos hmem, if_neg hlt]
      rw [herr] at hok
      exact absurd hok (by simp)
    have h1 : stripOFlag argv =
        .ok (some DIR, argv.take (argv.indexOf (pstr "-o")) ++
          argv.drop (argv.indexOf (pstr "-o") + 2)) := by
      simp only [stripOFlag, if_pos hmem, if_pos hlt, hgetD]
    have h2 := parse_args_outputDir_eq env argv _ _ r h1 hok
    rw [h2]
    simp only [Option.elim_some, if_pos hne]
  · intro hcwd hnmem
    have h1 : stripOFlag argv = .ok (none, argv) := by
      simp only [stripOFlag, if_neg hnmem]
    have h2 := parse_args_outputDir_eq env argv none argv r h1 hok
    simp only [Option.elim_none] at h2
    have hcwdexp : pyExpanduser env.home env.cwd = env.cwd :=
      pyExpanduser_of_head_ne _ _ (abs_head_ne_tilde hcwd)
    constructor
    · intro s hs
      rw [h2]
      unfold envFallbackBase
      rw [hs]
      simp only [Option.getD_some]
      by_cases hdot : pyPathStr s = pstr "."
      · rw [if_pos hdot, hcwdexp,
          pyExpanduser_of_head_ne _ _ (pyPathStr_dot_head hdot)]
        exact (pyResolve_of_pathStr_dot env.cwd s hcwd hdot).symm
      · rw [if_neg hdot]
    · intro hs
      rw [h2]
      unfold envFallbackBase
      rw [hs]
      simp only [Option.getD_none]
      rw [if_pos (by decide), hcwdexp]

/-- **C5** witness: `-o /data` wins over `INSTA_DL_DIR=/srv/media`. -/
theorem parse_args_output_dir_witness :
    (⟨pstr "https://e/p/X", 70, pstr "/data", []⟩ : ParsedArgs).outputDir =
      pyResolve (pstr "/home/u") (pyExpanduser (pstr "/home/u") (pstr "/data")) :=
  (parse_args_output_dir ⟨some (pstr "/srv/media"), pstr "/home/u", pstr "/home/u"⟩
      [pstr "-o", pstr "/data", pstr "https://e/p/X"] _ rfl).1
    (pstr "/data") (by decide) (by decide) (by decide)

/-- **C5** counterexample to the claim as stated: the well-formed pair
`-o ""` does *not* take precedence — `if output_dir:` is false for the
empty string, so `INSTA_DL_DIR=/srv/media` wins, while the claim promises
the (empty, hence cwd-resolving) `-o` value. -/
theorem parse_args_output_dir_counterexample :
    parse_args ⟨some (pstr "/srv/media"), pstr "/home/u", pstr "/home/u"⟩
        [pstr "-o", pstr "", pstr "https://e/p/X"] =
      .ok ⟨pstr "https://e/p/X", 70, pstr "/srv/media", []⟩
  ∧ pstr "/srv/media" ≠
      pyResolve (pstr "/home/u") (pyExpanduser (pstr "/home/u") (pstr "")) :=
  ⟨rfl, by decide⟩

/-- **C6** (amended).  When the *first* occurrence of `-o` is the last
token, `parse_args` exits with the missing-value error; when the
positional tokens that remain after removing the `-o` pair and the
`key=value` overrides number neither one nor two, it exits with the usage
error.  In the model an `.error` result is exactly "print message, exit
nonzero, no side effects".  (A trailing *second* `-o` does not error —
see the counterexample.) -/
theorem parse_args_usage_errors (env : ArgEnv) (argv : List (List Char)) :
    (pstr "-o" ∈ argv → argv.indexOf (pstr "-o") + 1 = argv.length →
      parse_args env argv = .error .optMissingValue)
  ∧ (∀ odir args, stripOFlag argv = .ok (odir, args) →
      (splitOverrides args).1.length ≠ 1 → (splitOverrides args).1.length ≠ 2 →
      parse_args env argv = .error .usage) := by
  constructor
  · intro hmem hidx
    have hlt : ¬(argv.indexOf (pstr "-o") + 1 < argv.length) := by omega
    simp only [parse_args, stripOFlag, if_pos hmem, if_neg hlt]
  · intro odir args h1 hn1 hn2
    simp only [parse_args, h1]
    rcases hpos : (splitOverrides args).1 with _ | ⟨u, _ | ⟨n, _ | _⟩⟩ <;>
      simp only [hpos]
    · rw [hpos] at hn1; simp at hn1
    · rw [hpos] at hn2; simp at hn2

/-- **C6** witness: a lone `-o` errors; three positional tokens error. -/
theorem parse_args_usage_errors_witness :
    parse_args ⟨none, pstr "/cwd", pstr "/home⟩"⟩ [pstr "-o"] = .error .optMissingValue
  ∧ parse_args ⟨none, pstr "/cwd", pstr "/home⟩"⟩ [pstr "a", pstr "b", pstr "c"] =
      .error .usage :=
  ⟨(parse_args_usage_errors ⟨none, pstr "/cwd", pstr "/home⟩"⟩ [pstr "-o"]).1
      (by decide) (by decide),
   (parse_args_usage_errors ⟨none, pstr "/cwd", pstr "/home⟩"⟩
      [pstr "a", pstr "b", pstr "c"]).2 none [pstr "a", pstr "b", pstr "c"]
      rfl (by decide) (by decide)⟩

/-- **C6** counterexample to the claim as stated: in `["-o", "x", "-o"]`
the token `-o` is last with no following value, yet parsing succeeds —
`args.index("-o")` finds only the first occurrence, and the trailing `-o`
becomes the URL. -/
theorem parse_args_usage_counterexample :
    [pstr "-o", pstr "x", pstr "-o"].getLast? = some (pstr "-o")
  ∧ parse_args ⟨none, pstr "/home/u", pstr "/home/u"⟩ [pstr "-o", pstr "x", pstr "-o"] =
      .ok ⟨pstr "-o", 70, pstr "/home/u/x", []⟩ :=
  ⟨by decide, rfl⟩

/-- **C9**: when the positional tokens reduce to exactly one (the URL),
the returned max-title-length is the default 70. -/
theorem parse_args_default_maxlen (env : ArgEnv) (argv : List (List Char))
    (odir : Option (List Char)) (args : List (List Char)) (u : List Char)
    (r : ParsedArgs) (h1 : stripOFlag argv = .ok (odir, args))
    (h2 : (splitOverrides args).1 = [u]) (hok : parse_args env argv = .ok r) :
    r.maxLen = 70 := by
  simp only [parse_args, h1, h2] at hok
  injection hok with h3
  rw [← h3]
  rfl

/-- **C9** witness: a URL plus one override, no explicit length. -/
theorem parse_args_default_maxlen_witness :
    (⟨pstr "https://e/p/X", 70, pstr "/cwd", [(pstr "k", PyVal.pybool true)]⟩
        : ParsedArgs).maxLen = 70 :=
  parse_args_default_maxlen ⟨none, pstr "/cwd", pstr "/h"⟩
    [pstr "https://e/p/X", pstr "k=1"] none [pstr "https://e/p/X", pstr "k=1"]
    (pstr "https://e/p/X") _ rfl (by decide) rfl

/-! ## Lemmas about URL normalisation -/

theorem clean_url_eq (u : List Char) (p : UrlParts) (h : urlparseModel u = .ok p) :
    clean_url u = .ok (urlunparseModel ⟨p.scheme, p.netloc, p.path, p.params, [], []⟩) := by
  simp only [clean_url, h]

/-- **C3**: URLs whose parses agree on everything but query and fragment
clean to the same string, hence the same shortcode outcome; and `clean_url`
is exactly the reassembly of the parsed components with query and fragment
discarded. -/
theorem clean_url_query_fragment_invariant :
    (∀ u1 u2 p1 p2, urlparseModel u1 = .ok p1 → urlparseModel u2 = .ok p2 →
      p1.scheme = p2.scheme → p1.netloc = p2.netloc → p1.path = p2.path →
      p1.params = p2.params →
      clean_url u1 = clean_url u2 ∧
      (clean_url u1).toOption.map extract_shortcode =
        (clean_url u2).toOption.map extract_shortcode)
  ∧ (∀ u p, urlparseModel u = .ok p →
      clean_url u = .ok (urlunparseModel ⟨p.scheme, p.netloc, p.path, p.params, [], []⟩)) := by
  constructor
  · intro u1 u2 p1 p2 h1 h2 hs hn hp hpar
    have e1 := clean_url_eq u1 p1 h1
    have e2 := clean_url_eq u2 p2 h2
    have e3 : clean_url u1 = clean_url u2 := by
      rw [e1, e2, hs, hn, hp, hpar]
    exact ⟨e3, by rw [e3]⟩
  · exact clean_url_eq

/-- **C3** witness: the same post URL with a tracking query and with a
fragment cleans to the same string and yields shortcode `ABC123`. -/
theorem clean_url_query_fragment_invariant_witness :
    clean_url (pstr "https://instagram.com/p/ABC123/?utm=x") =
      clean_url (pstr "https://instagram.com/p/ABC123/#frag")
  ∧ (clean_url (pstr "https://instagram.com/p/ABC123/?utm=x")).toOption.map
        extract_shortcode =
      (clean_url (pstr "https://instagram.com/p/ABC123/#frag")).toOption.map
        extract_shortcode :=
  (clean_url_query_fragment_invariant.1
    (pstr "https://instagram.com/p/ABC123/?utm=x")
    (pstr "https://instagram.com/p/ABC123/#frag")
    ⟨pstr "https", pstr "instagram.com", pstr "/p/ABC123/", [], pstr "utm=x", []⟩
    ⟨pstr "https", pstr "instagram.com", pstr "/p/ABC123/", [], [], pstr "frag"⟩
    rfl rfl rfl rfl rfl rfl)

/-! ## Lemmas about the session bootstrap -/

/-- **C7**: `init_session` first checks for an existing valid session and
returns without changes when one exists — whatever the browser name; only
otherwise is the browser validated, an unsupported name exiting nonzero
with the supported set printed. -/
theorem init_session_order (env : InitEnv) (browser : List Char) :
    (∀ u, env.diskSession = some u → u ≠ [] → env.existingValid = true →
      init_session env browser = .alreadyExists u)
  ∧ ((∀ u, env.diskSession = some u → u = [] ∨ env.existingValid = false) →
      browser ∉ SUPPORTED_BROWSERS → init_session env browser = .unsupportedBrowser) := by
  constructor
  · intro u hu hne hv
    simp only [init_session, hu]
    rw [if_pos ⟨hne, hv⟩]
  · intro hinv hbrowser
    cases hd : env.diskSession with
    | none =>
      simp only [init_session, hd, initSessionFresh]
      rw [if_pos hbrowser]
    | some u =>
      simp only [init_session, hd]
      rw [if_neg]
      · simp only [initSessionFresh]
        rw [if_pos hbrowser]
      · intro hcontra
        rcases hinv u hd with h | h
        · exact hcontra.1 h
        · rw [hcontra.2] at h
          exact absurd h (by decide)

/-- **C7** witness: an existing valid session wins even for the
unsupported browser name `netscape`; with no session on disk, `netscape`
is rejected. -/
theorem init_session_order_witness :
    init_session ⟨some (pstr "alice"), true, fun _ => true, fun _ => none⟩
        (pstr "netscape") = .alreadyExists (pstr "alice")
  ∧ init_session ⟨none, false, fun _ => true, fun _ => none⟩ (pstr "netscape") =
      .unsupportedBrowser :=
  ⟨(init_session_order ⟨some (pstr "alice"), true, fun _ => true, fun _ => none⟩
      (pstr "netscape")).1 (pstr "alice") rfl (by decide) rfl,
   (init_session_order ⟨none, false, fun _ => true, fun _ => none⟩
      (pstr "netscape")).2 (fun u hu => nomatch hu) (by decide)⟩

/-! ## Lemmas about the JSON line format -/

theorem hexVal?_hexDigit {k : Nat} (h : k < 16) : hexVal? (hexDigit k) = some k := by
  interval_cases k <;> rfl

theorem skipWs_cons {c : Char} (r : List Char) (h : jsonWs c = false) :
    skipWs (c :: r) = c :: r := by
  simp [skipWs, List.dropWhile_cons, h]

theorem natToDigitsAux_eq : ∀ (f f' n : Nat), n < f → n < f' →
    natToDigitsAux f n = natToDigitsAux f' n := by
  intro f
  induction f with
  | zero => intro f' n h; omega
  | succ f ih =>
    intro f' n hf hf'
    cases f' with
    | zero => omega
    | succ f'' =>
      simp only [natToDigitsAux]
      by_cases h10 : n < 10
      · rw [if_pos h10, if_pos h10]
      · rw [if_neg h10, if_neg h10,
          ih f'' (n / 10) (by omega) (by omega)]

theorem natToDigits_lt10 {n : Nat} (h : n < 10) :
    natToDigits n = [Char.ofNat (48 + n)] := by
  simp only [natToDigits, natToDigitsAux, if_pos h]

theorem natToDigits_ge10 {n : Nat} (h : ¬ n < 10) :
    natToDigits n = natToDigits (n / 10) ++ [Char.ofNat (48 + n % 10)] := by
  have e1 : natToDigits n =
      (if n < 10 then [Char.ofNat (48 + n)]
       else natToDigitsAux n (n / 10) ++ [Char.ofNat (48 + n % 10)]) := rfl
  rw [e1, if_neg h, natToDigitsAux_eq n (n / 10 + 1) (n / 10) (by omega) (by omega)]
  rfl

theorem isAsciiDigit_ofNat_add {n : Nat} (h : n < 10) :
    isAsciiDigit (Char.ofNat (48 + n)) = true := by
  interval_cases n <;> rfl

theorem natToDigits_all_digits : ∀ (n : Nat), ∀ c ∈ natToDigits n, isAsciiDigit c = true := by
  intro n
  induction n using Nat.strong_induction_on with
  | _ n ih =>
    by_cases h10 : n < 10
    · rw [natToDigits_lt10 h10]
      intro c hc
      simp only [List.mem_singleton] at hc
      subst hc
      exact isAsciiDigit_ofNat_add h10
    · rw [natToDigits_ge10 h10]
      intro c hc
      rw [List.mem_append] at hc
      rcases hc with hc | hc
      · exact ih (n / 10) (Nat.div_lt_self (by omega) (by omega)) c hc
      · simp only [List.mem_singleton] at hc
        subst hc
        exact isAsciiDigit_ofNat_add (Nat.mod_lt _ (by omega))

theorem natToDigits_ne_nil (n : Nat) : natToDigits n ≠ [] := by
  by_cases h10 : n < 10
  · rw [natToDigits_lt10 h10]; simp
  · rw [natToDigits_ge10 h10]; simp

theorem digit_not_underscore {c : Char} (h : isAsciiDigit c = true) : (c != '_') = true := by
  by_contra hne
  simp only [bne_iff_ne, ne_eq, Decidable.not_not] at hne
  subst hne
  exact absurd h (by decide)

theorem digitsVal_digits_eq_fold {l : List Char} (h : ∀ c ∈ l, isAsciiDigit c = true) :
    digitsVal l = l.foldl (fun n c => 10 * n + (c.toNat - 48)) 0 := by
  unfold digitsVal
  congr 1
  exact List.filter_eq_self.mpr (fun c hc => digit_not_underscore (h c hc))

theorem toNat_ofNat_digit {n : Nat} (h : n < 10) : (Char.ofNat (48 + n)).toNat = 48 + n := by
  interval_cases n <;> rfl

theorem digitsVal_natToDigits (n : Nat) : digitsVal (natToDigits n) = n := by
  induction n using Nat.strong_induction_on with
  | _ n ih =>
    rw [digitsVal_digits_eq_fold (natToDigits_all_digits n)]
    by_cases h10 : n < 10
    · rw [natToDigits_lt10 h10]
      show 10 * 0 + ((Char.ofNat (48 + n)).toNat - 48) = n
      rw [toNat_ofNat_digit h10]
      omega
    · rw [natToDigits_ge10 h10, List.foldl_append]
      have ihv := ih (n / 10) (Nat.div_lt_self (by omega) (by omega))
      rw [digitsVal_digits_eq_fold (natToDigits_all_digits _)] at ihv
      show 10 * ((natToDigits (n / 10)).foldl _ 0) + ((Char.ofNat (48 + n % 10)).toNat - 48) = n
      rw [ihv, toNat_ofNat_digit (Nat.mod_lt _ (by omega))]
      omega

theorem foldl_digits_init (b : List Char) : ∀ init : Nat,
    b.foldl (fun n c => 10 * n + (c.toNat - 48)) init =
      init * 10 ^ b.length + b.foldl (fun n c => 10 * n + (c.toNat - 48)) 0 := by
  induction b with
  | nil => intro init; simp
  | cons c t ih =>
    intro init
    rw [List.foldl_cons, List.foldl_cons, ih, ih (10 * 0 + (c.toNat - 48))]
    rw [List.length_cons, pow_succ]
    ring_nf
    omega

theorem foldl_digits_replicate_zero (k : Nat) (l : List Char) :
    (List.replicate k '0' ++ l).foldl (fun n c => 10 * n + (c.toNat - 48)) 0 =
      l.foldl (fun n c => 10 * n + (c.toNat - 48)) 0 := by
  induction k with
  | zero => rfl
  | succ k ih =>
    rw [List.replicate_succ, List.cons_append, List.foldl_cons]
    show (List.replicate k '0' ++ l).foldl (fun n c => 10 * n + (c.toNat - 48)) 0 = _
    exact ih

theorem parseJsonStringBody_escape : ∀ (s rest : List Char),
    parseJsonStringBody (escapeJsonString s ++ '"' :: rest) = some (s, rest) := by
  intro s
  induction s with
  | nil =>
    intro rest
    show parseJsonStringBody ('"' :: rest) = some ([], rest)
    rw [parseJsonStringBody.eq_def]
    simp
  | cons c t ih =>
    intro rest
    have he : escapeJsonString (c :: t) = escapeJsonChar c ++ escapeJsonString t := by
      simp [escapeJsonString]
    rw [he, List.append_assoc]
    by_cases h1 : c = '"'
    · subst h1
      rw [show escapeJsonChar '"' ++ (escapeJsonString t ++ '"' :: rest) =
          '\\' :: '"' :: (escapeJsonString t ++ '"' :: rest) from rfl]
      rw [parseJsonStringBody.eq_def]
      simp [ih]
    · by_cases h2 : c = '\\'
      · subst h2
        rw [show escapeJsonChar '\\' ++ (escapeJsonString t ++ '"' :: rest) =
            '\\' :: '\\' :: (escapeJsonString t ++ '"' :: rest) from rfl]
        rw [parseJsonStringBody.eq_def]
        simp [ih]
      · by_cases h3 : c = '\n'
        · subst h3
          rw [show escapeJsonChar '\n' ++ (escapeJsonString t ++ '"' :: rest) =
              '\\' :: 'n' :: (escapeJsonString t ++ '"' :: rest) from rfl]
          rw [parseJsonStringBody.eq_def]
          simp [ih]
        · by_cases h4 : c = '\r'
          · subst h4
            rw [show escapeJsonChar '\r' ++ (escapeJsonString t ++ '"' :: rest) =
                '\\' :: 'r' :: (escapeJsonString t ++ '"' :: rest) from rfl]
            rw [parseJsonStringBody.eq_def]
            simp [ih]
          · by_cases h5 : c = '\t'
            · subst h5
              rw [show escapeJsonChar '\t' ++ (escapeJsonString t ++ '"' :: rest) =
                  '\\' :: 't' :: (escapeJsonString t ++ '"' :: rest) from rfl]
              rw [parseJsonStringBody.eq_def]
              simp [ih]
            · by_cases h6 : c = '\x08'
              · subst h6
                rw [show escapeJsonChar '\x08' ++ (escapeJsonString t ++ '"' :: rest) =
                    '\\' :: 'b' :: (escapeJsonString t ++ '"' :: rest) from rfl]
                rw [parseJsonStringBody.eq_def]
                simp [ih]
              · by_cases h7 : c = '\x0c'
                · subst h7
                  rw [show escapeJsonChar '\x0c' ++ (escapeJsonString t ++ '"' :: rest) =
                      '\\' :: 'f' :: (escapeJsonString t ++ '"' :: rest) from rfl]
                  rw [parseJsonStringBody.eq_def]
                  simp [ih]
                · by_cases h8 : c.toNat < 32
                  · have hesc : escapeJsonChar c =
                        ['\\', 'u', '0', '0', hexDigit (c.toNat / 16), hexDigit (c.toNat % 16)] := by
                      simp only [escapeJsonChar, if_neg h1, if_neg h2, if_neg h3, if_neg h4,
                        if_neg h5, if_neg h6, if_neg h7, if_pos h8]
                      rfl
                    rw [hesc]
                    rw [show (['\\', 'u', '0', '0', hexDigit (c.toNat / 16),
                          hexDigit (c.toNat % 16)] : List Char) ++
                          (escapeJsonString t ++ '"' :: rest) =
                        '\\' :: 'u' :: '0' :: '0' :: hexDigit (c.toNat / 16)
                          :: hexDigit (c.toNat % 16)
                          :: (escapeJsonString t ++ '"' :: rest) from rfl]
                    rw [parseJsonStringBody.eq_def]
                    have hhi := hexVal?_hexDigit (k := c.toNat / 16) (by omega)
                    have hlo := hexVal?_hexDigit (k := c.toNat % 16) (by omega)
                    simp [hhi, hlo, ih]
                    rw [show hexVal? '0' = some 0 from rfl]
                    simp only [Option.some_bind]
                    rw [show ∀ x : Nat, 4096 * 0 + 256 * 0 + 16 * (x / 16) + x % 16 = x from
                      fun x => by omega]
                    rw [Char.ofNat_toNat]
                  · have hesc : escapeJsonChar c = [c] := by
                      simp only [escapeJsonChar, if_neg h1, if_neg h2, if_neg h3, if_neg h4,
                        if_neg h5, if_neg h6, if_neg h7, if_neg h8]
                    rw [hesc, List.singleton_append]
                    rw [parseJsonStringBody.eq_def]
                    simp [h1, h2, h8, ih]

theorem takeWhile_digits_append {a b : List Char}
    (ha : ∀ c ∈ a, isAsciiDigit c = true)
    (hb : ∀ c, b.head? = some c → isAsciiDigit c = false) :
    (a ++ b).takeWhile isAsciiDigit = a := by
  induction a with
  | nil =>
    cases b with
    | nil => rfl
    | cons c t => simp [List.takeWhile_cons, hb c rfl]
  | cons c t ih =>
    have hc := ha c (List.mem_cons_self c t)
    rw [List.cons_append, List.takeWhile_cons]
    simp only [hc, if_true]
    rw [ih (fun d hd => ha d (List.mem_cons_of_mem c hd))]

theorem take_succ_ne_of_head_ne {l pre : List Char} {k : Nat}
    (h : l.head? ≠ pre.head?) : l.take (k + 1) ≠ pre := by
  intro he
  apply h
  rw [← he]
  cases l <;> simp [List.take_succ_cons]

theorem digitsVal_append {A B : List Char}
    (hA : ∀ c ∈ A, isAsciiDigit c = true) (hB : ∀ c ∈ B, isAsciiDigit c = true) :
    digitsVal (A ++ B) = digitsVal A * 10 ^ B.length + digitsVal B := by
  have hAB : ∀ c ∈ A ++ B, isAsciiDigit c = true := by
    intro c hc
    rw [List.mem_append] at hc
    rcases hc with hc | hc
    · exact hA c hc
    · exact hB c hc
  rw [digitsVal_digits_eq_fold hAB, List.foldl_append, foldl_digits_init,
    ← digitsVal_digits_eq_fold hA, ← digitsVal_digits_eq_fold hB]

theorem digitsVal_replicate_zero {k : Nat} {l : List Char}
    (hl : ∀ c ∈ l, isAsciiDigit c = true) :
    digitsVal (List.replicate k '0' ++ l) = digitsVal l := by
  have hall : ∀ c ∈ List.replicate k '0' ++ l, isAsciiDigit c = true := by
    intro c hc
    rw [List.mem_append] at hc
    rcases hc with hc | hc
    · rw [List.eq_of_mem_replicate hc]; rfl
    · exact hl c hc
  rw [digitsVal_digits_eq_fold hall, foldl_digits_replicate_zero,
    ← digitsVal_digits_eq_fold hl]

/-- The side condition on what follows a serialised number token. -/
def numBoundary (rest : List Char) : Prop :=
  ∀ c, rest.head? = some c → isAsciiDigit c = false ∧ c ≠ '.'

theorem parseJsonNumber_digits (D rest : List Char)
    (hD : ∀ c ∈ D, isAsciiDigit c = true) (hne : D ≠ [])
    (hrest : numBoundary rest) :
    parseJsonNumber (D ++ rest) = some (.jint ((digitsVal D : Nat) : Int), rest) := by
  obtain ⟨d0, dt, rfl⟩ : ∃ d0 dt, D = d0 :: dt := by
    cases D with
    | nil => exact absurd rfl hne
    | cons d0 dt => exact ⟨d0, dt, rfl⟩
  have hd0 := hD d0 (List.mem_cons_self d0 dt)
  have hneg : ¬(((d0 :: dt) ++ rest).take 1 = pstr "-") := by
    apply take_succ_ne_of_head_ne (k := 0)
    simp only [List.cons_append, List.head?_cons, pstr]
    intro hx
    rw [show ("-".toList).head? = some '-' from rfl] at hx
    simp only [Option.some.injEq] at hx
    subst hx
    exact absurd hd0 (by decide)
  unfold parseJsonNumber
  rw [if_neg hneg]
  simp only [takeWhile_digits_append hD (fun c hc => (hrest c hc).1), List.drop_left]
  rw [if_neg (by simp [hne])]
  have hdot : ¬(rest.take 1 = pstr ".") := by
    cases rest with
    | nil => decide
    | cons c t =>
      apply take_succ_ne_of_head_ne (k := 0)
      simp only [List.head?_cons, pstr]
      intro hx
      rw [show (".".toList).head? = some '.' from rfl] at hx
      simp only [Option.some.injEq] at hx
      subst hx
      exact absurd (hrest '.' rfl).2 (by simp)
  rw [if_neg hdot, if_neg hneg]

theorem parseJsonNumber_intToDigits (n : Int) (rest : List Char)
    (hrest : numBoundary rest) :
    parseJsonNumber (intToDigits n ++ rest) = some (.jint n, rest) := by
  by_cases hn : n < 0
  · have he : intToDigits n = '-' :: natToDigits n.natAbs := by
      simp only [intToDigits, if_pos hn]
    rw [he, List.cons_append]
    have hneg : (('-' :: (natToDigits n.natAbs ++ rest)).take 1 = pstr "-") := rfl
    unfold parseJsonNumber
    rw [if_pos hneg, List.tail_cons]
    simp only [takeWhile_digits_append (natToDigits_all_digits _)
        (fun c hc => (hrest c hc).1), List.drop_left]
    rw [if_neg (by simpa using natToDigits_ne_nil n.natAbs)]
    have hdot : ¬(rest.take 1 = pstr ".") := by
      cases rest with
      | nil => decide
      | cons c t =>
        apply take_succ_ne_of_head_ne (k := 0)
        simp only [List.head?_cons, pstr]
        intro hx
        rw [show (".".toList).head? = some '.' from rfl] at hx
        simp only [Option.some.injEq] at hx
        subst hx
        exact absurd (hrest '.' rfl).2 (by simp)
    rw [if_neg hdot, digitsVal_natToDigits]
    have hval : -((n.natAbs : Nat) : Int) = n := by omega
    rw [hval, if_pos hneg]
  · have he : intToDigits n = natToDigits n.toNat := by
      simp only [intToDigits, if_neg hn]
    rw [he, parseJsonNumber_digits _ _ (natToDigits_all_digits _)
      (natToDigits_ne_nil _) hrest, digitsVal_natToDigits]
    have : ((n.toNat : Nat) : Int) = n := by omega
    rw [this]

theorem decDump_shape (m : Int) (d : Nat) (hd : 1 ≤ d) :
    ∃ A B : List Char, A ≠ [] ∧ B.length = d ∧
      (∀ c ∈ A, isAsciiDigit c = true) ∧ (∀ c ∈ B, isAsciiDigit c = true) ∧
      digitsVal A * 10 ^ d + digitsVal B = m.natAbs ∧
      decDump m d = (if m < 0 then ['-'] else []) ++ (A ++ '.' :: B) := by
  obtain ⟨ds, hdseq, hdig, hlen, hval⟩ : ∃ ds : List Char,
      (if (natToDigits m.natAbs).length < d + 1
       then List.replicate (d + 1 - (natToDigits m.natAbs).length) '0' ++ natToDigits m.natAbs
       else natToDigits m.natAbs) = ds ∧
      (∀ c ∈ ds, isAsciiDigit c = true) ∧ d + 1 ≤ ds.length ∧
      digitsVal ds = m.natAbs := by
    refine ⟨_, rfl, ?_, ?_, ?_⟩
    · split
      · intro c hc
        rw [List.mem_append] at hc
        rcases hc with hc | hc
        · rw [List.eq_of_mem_replicate hc]; rfl
        · exact natToDigits_all_digits _ c hc
      · exact natToDigits_all_digits _
    · split
      · next hlt =>
        rw [List.length_append, List.length_replicate]
        omega
      · next hge => omega
    · split
      · rw [digitsVal_replicate_zero (natToDigits_all_digits _)]
        exact digitsVal_natToDigits _
      · exact digitsVal_natToDigits _
  have hshape : decDump m d =
      (if m < 0 then ['-'] else []) ++
        (ds.take (ds.length - d) ++ '.' :: ds.drop (ds.length - d)) := by
    rw [show decDump m d = ((if m < 0 then ['-'] else []) ++
        (if (natToDigits m.natAbs).length < d + 1
          then List.replicate (d + 1 - (natToDigits m.natAbs).length) '0' ++
            natToDigits m.natAbs
          else natToDigits m.natAbs).take
            ((if (natToDigits m.natAbs).length < d + 1
              then List.replicate (d + 1 - (natToDigits m.natAbs).length) '0' ++
                natToDigits m.natAbs
              else natToDigits m.natAbs).length - d)) ++
          '.' :: (if (natToDigits m.natAbs).length < d + 1
          then List.replicate (d + 1 - (natToDigits m.natAbs).length) '0' ++
            natToDigits m.natAbs
          else natToDigits m.natAbs).drop
            ((if (natToDigits m.natAbs).length < d + 1
              then List.replicate (d + 1 - (natToDigits m.natAbs).length) '0' ++
                natToDigits m.natAbs
              else natToDigits m.natAbs).length - d) from rfl, hdseq,
      List.append_assoc]
  have hBlen : (ds.drop (ds.length - d)).length = d := by
    rw [List.length_drop]; omega
  refine ⟨ds.take (ds.length - d), ds.drop (ds.length - d), ?_, hBlen, ?_, ?_, ?_, hshape⟩
  · intro hnil
    have hc := congrArg List.length hnil
    rw [List.length_take] at hc
    simp only [List.length_nil] at hc
    omega
  · intro c hc
    exact hdig c ((List.take_sublist _ _).mem hc)
  · intro c hc
    exact hdig c ((List.drop_sublist _ _).mem hc)
  · have h2 := digitsVal_append (fun c hc => hdig c ((List.take_sublist (ds.length - d) _).mem hc))
      (fun c hc => hdig c ((List.drop_sublist (ds.length - d) _).mem hc))
    rw [List.take_append_drop, hBlen] at h2
    rw [← h2, hval]

/-- A serialised token starts like a number. -/
def numStart (c : Char) : Prop := isAsciiDigit c = true ∨ c = '-'

theorem numStart_ne {c : Char} (h : numStart c) :
    c ≠ '"' ∧ c ≠ 'n' ∧ c ≠ 't' ∧ c ≠ 'f' := by
  rcases h with h | h
  · refine ⟨?_, ?_, ?_, ?_⟩ <;> intro he <;> subst he <;> exact absurd h (by decide)
  · subst h; exact ⟨by decide, by decide, by decide, by decide⟩

theorem head_ne_of {c d : Char} {l pre : List Char} (hc : l.head? = some c)
    (hpre : pre.head? = some d) (hne : c ≠ d) : l.head? ≠ pre.head? := by
  rw [hc, hpre]
  simp [hne]

theorem parseJsonScalar_of_head_num {l : List Char} {c : Char} (hc : l.head? = some c)
    (h : numStart c) : parseJsonScalar l = parseJsonNumber l := by
  obtain ⟨h1, h2, h3, h4⟩ := numStart_ne h
  unfold parseJsonScalar
  rw [if_neg (take_succ_ne_of_head_ne (k := 0)
      (head_ne_of hc (show (pstr "\"").head? = some '"' from rfl) h1)),
    if_neg (take_succ_ne_of_head_ne (k := 3)
      (head_ne_of hc (show (pstr "null").head? = some 'n' from rfl) h2)),
    if_neg (take_succ_ne_of_head_ne (k := 3)
      (head_ne_of hc (show (pstr "true").head? = some 't' from rfl) h3)),
    if_neg (take_succ_ne_of_head_ne (k := 4)
      (head_ne_of hc (show (pstr "false").head? = some 'f' from rfl) h4))]

theorem intToDigits_head (n : Int) :
    ∃ c r, intToDigits n = c :: r ∧ numStart c := by
  by_cases hn : n < 0
  · exact ⟨'-', natToDigits n.natAbs, by simp [intToDigits, if_pos hn], Or.inr rfl⟩
  · cases he : natToDigits n.toNat with
    | nil => exact absurd he (natToDigits_ne_nil _)
    | cons c r =>
      refine ⟨c, r, by simp [intToDigits, if_neg hn, he], Or.inl ?_⟩
      exact natToDigits_all_digits _ c (by rw [he]; exact List.mem_cons_self c r)

theorem parseJsonNumber_decDump (m : Int) (d : Nat) (hd : 1 ≤ d) (rest : List Char)
    (hrest : numBoundary rest) :
    parseJsonNumber (decDump m d ++ rest) = some (.jdec m d, rest) := by
  obtain ⟨A, B, hAne, hBlen, hAdig, hBdig, hvalue, hshape⟩ := decDump_shape m d hd
  have hdotB : ∀ c, ('.' :: (B ++ rest)).head? = some c → isAsciiDigit c = false := by
    intro c hc
    simp only [List.head?_cons, Option.some.injEq] at hc
    subst hc
    decide
  by_cases hm : m < 0
  · rw [hshape, if_pos hm]
    rw [show (['-'] ++ (A ++ '.' :: B)) ++ rest = '-' :: (A ++ '.' :: (B ++ rest)) by simp]
    have hneg : (('-' :: (A ++ '.' :: (B ++ rest))).take 1 = pstr "-") := rfl
    unfold parseJsonNumber
    rw [if_pos hneg, List.tail_cons]
    simp only [takeWhile_digits_append hAdig hdotB, List.drop_left]
    rw [if_neg (by simpa using hAne)]
    rw [show ('.' :: (B ++ rest)).take 1 = pstr "." from rfl, if_pos rfl, List.tail_cons]
    simp only [takeWhile_digits_append hBdig (fun c hc => (hrest c hc).1), List.drop_left]
    rw [if_neg (by simpa using (show B ≠ [] from fun h => by
      rw [h] at hBlen; simp at hBlen; omega))]
    rw [if_pos hneg]
    have hB : (B.length : Nat) = d := hBlen
    rw [hB]
    have : -((digitsVal A * 10 ^ d + digitsVal B : Nat) : Int) = m := by
      rw [hvalue]; omega
    rw [this]
  · rw [hshape, if_neg hm, List.nil_append]
    rw [show (A ++ '.' :: B) ++ rest = A ++ '.' :: (B ++ rest) by simp]
    obtain ⟨a0, at0, rfl⟩ : ∃ a0 at0, A = a0 :: at0 := by
      cases A with
      | nil => exact absurd rfl hAne
      | cons a0 at0 => exact ⟨a0, at0, rfl⟩
    have ha0 := hAdig a0 (List.mem_cons_self a0 at0)
    have hneg : ¬((((a0 :: at0) ++ '.' :: (B ++ rest)).take 1 = pstr "-")) := by
      apply take_succ_ne_of_head_ne (k := 0)
      exact head_ne_of (show ((a0 :: at0) ++ '.' :: (B ++ rest)).head? = some a0 from rfl)
        (show (pstr "-").head? = some '-' from rfl)
        (fun he => by rw [he] at ha0; exact absurd ha0 (by decide))
    unfold parseJsonNumber
    rw [if_neg hneg]
    simp only [takeWhile_digits_append hAdig hdotB, List.drop_left]
    rw [if_neg (by simp)]
    rw [show ('.' :: (B ++ rest)).take 1 = pstr "." from rfl, if_pos rfl, List.tail_cons]
    simp only [takeWhile_digits_append hBdig (fun c hc => (hrest c hc).1), List.drop_left]
    rw [if_neg (by simpa using (show B ≠ [] from fun h => by
      rw [h] at hBlen; simp at hBlen; omega))]
    rw [if_neg hneg]
    have hB : (B.length : Nat) = d := hBlen
    rw [hB]
    have : ((digitsVal (a0 :: at0) * 10 ^ d + digitsVal B : Nat) : Int) = m := by
      rw [hvalue]; omega
    rw [this]

/-- The well-formedness a dumped value needs for exact re-parsing: a
decimal must have at least one fractional digit (as `repr(float)` always
prints). -/
def jdumpNumOk : JVal → Prop
  | .jdec _ d => 1 ≤ d
  | _ => True

theorem parseJsonScalar_jdump (v : JVal) (rest : List Char)
    (hv : jdumpNumOk v) (hrest : numBoundary rest) :
    parseJsonScalar (jdump v ++ rest) = some (v, rest) := by
  cases v with
  | jnull =>
    show parseJsonScalar ('n' :: 'u' :: 'l' :: 'l' :: rest) = _
    unfold parseJsonScalar
    rw [if_neg (take_succ_ne_of_head_ne (k := 0)
        (head_ne_of (show ('n' :: 'u' :: 'l' :: 'l' :: rest).head? = some 'n' from rfl)
          (show (pstr "\"").head? = some '"' from rfl) (by decide))),
      if_pos (show List.take 4 ('n' :: 'u' :: 'l' :: 'l' :: rest) = pstr "null" from rfl)]
    rfl
  | jbool b =>
    cases b with
    | true =>
      show parseJsonScalar ('t' :: 'r' :: 'u' :: 'e' :: rest) = _
      unfold parseJsonScalar
      rw [if_neg (take_succ_ne_of_head_ne (k := 0)
          (head_ne_of (show ('t' :: 'r' :: 'u' :: 'e' :: rest).head? = some 't' from rfl)
            (show (pstr "\"").head? = some '"' from rfl) (by decide))),
        if_neg (take_succ_ne_of_head_ne (k := 3)
          (head_ne_of (show ('t' :: 'r' :: 'u' :: 'e' :: rest).head? = some 't' from rfl)
            (show (pstr "null").head? = some 'n' from rfl) (by decide))),
        if_pos (show List.take 4 ('t' :: 'r' :: 'u' :: 'e' :: rest) = pstr "true" from rfl)]
      rfl
    | false =>
      show parseJsonScalar ('f' :: 'a' :: 'l' :: 's' :: 'e' :: rest) = _
      unfold parseJsonScalar
      rw [if_neg (take_succ_ne_of_head_ne (k := 0)
          (head_ne_of (show ('f' :: 'a' :: 'l' :: 's' :: 'e' :: rest).head? = some 'f' from rfl)
            (show (pstr "\"").head? = some '"' from rfl) (by decide))),
        if_neg (take_succ_ne_of_head_ne (k := 3)
          (head_ne_of (show ('f' :: 'a' :: 'l' :: 's' :: 'e' :: rest).head? = some 'f' from rfl)
            (show (pstr "null").head? = some 'n' from rfl) (by decide))),
        if_neg (take_succ_ne_of_head_ne (k := 3)
          (head_ne_of (show ('f' :: 'a' :: 'l' :: 's' :: 'e' :: rest).head? = some 'f' from rfl)
            (show (pstr "true").head? = some 't' from rfl) (by decide))),
        if_pos (show List.take 5 ('f' :: 'a' :: 'l' :: 's' :: 'e' :: rest) = pstr "false" from rfl)]
      rfl
  | jstr s =>
    have he : jstrDump s ++ rest = '"' :: (escapeJsonString s ++ '"' :: rest) := by
      simp [jstrDump]
    show parseJsonScalar (jstrDump s ++ rest) = _
    rw [he]
    unfold parseJsonScalar
    rw [if_pos (show List.take 1 ('"' :: (escapeJsonString s ++ '"' :: rest)) = pstr "\"" from rfl),
      List.tail_cons, parseJsonStringBody_escape]
    rfl
  | jint n =>
    obtain ⟨c, r, he, hnum⟩ := intToDigits_head n
    have hc : (intToDigits n ++ rest).head? = some c := by rw [he]; rfl
    rw [show jdump (.jint n) = intToDigits n from rfl,
      parseJsonScalar_of_head_num hc hnum, parseJsonNumber_intToDigits n rest hrest]
  | jdec m d =>
    have hd : 1 ≤ d := hv
    obtain ⟨A, B, hAne, hBlen, hAdig, _, _, hshape⟩ := decDump_shape m d hd
    have hhead : ∃ c, (decDump m d ++ rest).head? = some c ∧ numStart c := by
      by_cases hm : m < 0
      · refine ⟨'-', ?_, Or.inr rfl⟩
        rw [hshape, if_pos hm]
        rfl
      · obtain ⟨a0, at0, hA⟩ : ∃ a0 at0, A = a0 :: at0 := by
          cases A with
          | nil => exact absurd rfl hAne
          | cons a0 at0 => exact ⟨a0, at0, rfl⟩
        refine ⟨a0, ?_, Or.inl (hAdig a0 (by rw [hA]; exact List.mem_cons_self a0 at0))⟩
        rw [hshape, if_neg hm, List.nil_append, hA]
        rfl
    obtain ⟨c, hc, hnum⟩ := hhead
    rw [show jdump (.jdec m d) = decDump m d from rfl,
      parseJsonScalar_of_head_num hc hnum, parseJsonNumber_decDump m d hd rest hrest]

theorem digit_not_ws {c : Char} (h : isAsciiDigit c = true) : jsonWs c = false := by
  by_contra hws
  rw [Bool.not_eq_false] at hws
  have h1 : ((c = ' ' ∨ c = '\t') ∨ c = '\n') ∨ c = '\x0d' := by
    simpa [jsonWs] using hws
  rcases h1 with ((h1 | h1) | h1) | h1 <;> subst h1 <;> exact absurd h (by decide)

theorem jdump_head (v : JVal) (hv : jdumpNumOk v) :
    ∃ c r, jdump v = c :: r ∧ jsonWs c = false := by
  cases v with
  | jnull => exact ⟨'n', pstr "ull", rfl, by decide⟩
  | jbool b =>
    cases b with
    | true => exact ⟨'t', pstr "rue", rfl, by decide⟩
    | false => exact ⟨'f', pstr "alse", rfl, by decide⟩
  | jint n =>
    obtain ⟨c, r, he, hnum⟩ := intToDigits_head n
    refine ⟨c, r, he, ?_⟩
    rcases hnum with h | h
    · exact digit_not_ws h
    · rw [h]; decide
  | jdec m d =>
    obtain ⟨A, B, hAne, hBlen, hAdig, _, _, hshape⟩ :=
      decDump_shape m d (show 1 ≤ d from hv)
    by_cases hm : m < 0
    · refine ⟨'-', A ++ '.' :: B, ?_, by decide⟩
      rw [show jdump (.jdec m d) = decDump m d from rfl, hshape, if_pos hm]
      rfl
    · obtain ⟨a0, at0, hA⟩ : ∃ a0 at0, A = a0 :: at0 := by
        cases A with
        | nil => exact absurd rfl hAne
        | cons a0 at0 => exact ⟨a0, at0, rfl⟩
      refine ⟨a0, at0 ++ '.' :: B, ?_,
        digit_not_ws (hAdig a0 (by rw [hA]; exact List.mem_cons_self a0 at0))⟩
      rw [show jdump (.jdec m d) = decDump m d from rfl, hshape, if_neg hm,
        List.nil_append, hA]
      rfl
  | jstr s => exact ⟨'"', escapeJsonString s ++ ['"'], rfl, by decide⟩

theorem skipWs_jdump (v : JVal) (hv : jdumpNumOk v) (Y : List Char) :
    skipWs (jdump v ++ Y) = jdump v ++ Y := by
  obtain ⟨c, r, he, hc⟩ := jdump_head v hv
  rw [he, List.cons_append, skipWs_cons _ hc]

theorem skipWs_space (Z : List Char) : skipWs (' ' :: Z) = skipWs Z := by
  show List.dropWhile jsonWs (' ' :: Z) = List.dropWhile jsonWs Z
  rw [List.dropWhile_cons, if_pos (by decide)]

theorem dumpPairs_singleton_decomp (k : List Char) (v : JVal) (X : List Char) :
    dumpPairs [(k, v)] ++ X =
      '"' :: (escapeJsonString k ++ '"' :: ':' :: ' ' :: (jdump v ++ X)) := by
  show (jstrDump k ++ pstr ": " ++ jdump v) ++ X = _
  simp [jstrDump, List.append_assoc, show pstr ": " = [':', ' '] from rfl]

theorem dumpPairs_cons_decomp (k : List Char) (v : JVal) (q : List Char × JVal)
    (ts : List (List Char × JVal)) (X : List Char) :
    dumpPairs ((k, v) :: q :: ts) ++ X =
      '"' :: (escapeJsonString k ++ '"' :: ':' :: ' ' ::
        (jdump v ++ ',' :: ' ' :: (dumpPairs (q :: ts) ++ X))) := by
  show (jstrDump k ++ pstr ": " ++ jdump v ++ pstr ", " ++ dumpPairs (q :: ts)) ++ X = _
  simp [jstrDump, List.append_assoc, show pstr ": " = [':', ' '] from rfl,
    show pstr ", " = [',', ' '] from rfl]

theorem skipWs_dumpPairs_cons (k : List Char) (v : JVal)
    (t : List (List Char × JVal)) (X : List Char) :
    skipWs (dumpPairs ((k, v) :: t) ++ X) = dumpPairs ((k, v) :: t) ++ X := by
  cases t with
  | nil => rw [dumpPairs_singleton_decomp]; exact skipWs_cons _ (by decide)
  | cons q ts => rw [dumpPairs_cons_decomp]; exact skipWs_cons _ (by decide)

theorem parseJsonPairs_key_step2 (f : Nat) (l k X : List Char) (v : JVal)
    (r4 : List Char)
    (hl : skipWs l = '"' :: (escapeJsonString k ++ '"' :: (':' :: ' ' :: X)))
    (hs : parseJsonScalar (skipWs X) = some (v, r4)) :
    parseJsonPairs (f + 1) l =
      (let r4' := skipWs r4
       if r4'.take 1 = pstr "," then
         match parseJsonPairs f r4'.tail with
         | none => none
         | some (ps, r6) => some ((k, v) :: ps, r6)
       else if r4'.take 1 = pstr "\x7d" then some ([(k, v)], r4'.tail)
       else none) := by
  conv_lhs => unfold parseJsonPairs
  rw [hl,
    if_pos (show List.take 1
      ('"' :: (escapeJsonString k ++ '"' :: (':' :: ' ' :: X))) = pstr "\"" from rfl),
    List.tail_cons, parseJsonStringBody_escape]
  show (let r2' := skipWs (':' :: ' ' :: X)
        if r2'.take 1 = pstr ":" then
          match parseJsonScalar (skipWs r2'.tail) with
          | none => none
          | some (v, r4) =>
            let r4' := skipWs r4
            if r4'.take 1 = pstr "," then
              match parseJsonPairs f r4'.tail with
              | none => none
              | some (ps, r6) => some ((k, v) :: ps, r6)
            else if r4'.take 1 = pstr "\x7d" then some ([(k, v)], r4'.tail)
            else none
        else none) = _
  simp only [show skipWs (':' :: ' ' :: X) = ':' :: ' ' :: X from skipWs_cons _ (by decide)]
  rw [if_pos (show List.take 1 (':' :: ' ' :: X) = pstr ":" from rfl),
    List.tail_cons, skipWs_space, hs]

theorem parseJsonPairs_dumpPairs :
    ∀ (ps : List (List Char × JVal)) (rest l : List Char) (fuel : Nat),
      ps ≠ [] → (∀ p ∈ ps, jdumpNumOk p.2) → ps.length ≤ fuel →
      skipWs l = dumpPairs ps ++ '\x7d' :: rest →
      parseJsonPairs fuel l = some (ps, rest) := by
  intro ps
  induction ps with
  | nil => intro rest l fuel hne _ _ _; exact absurd rfl hne
  | cons p t ih =>
    obtain ⟨k, v⟩ := p
    intro rest l fuel _ hok hfuel hl
    obtain ⟨f, rfl⟩ : ∃ f, fuel = f + 1 := by
      cases fuel with
      | zero => exact absurd hfuel (by simp)
      | succ f => exact ⟨f, rfl⟩
    have hv : jdumpNumOk v := hok (k, v) (List.mem_cons_self _ _)
    cases t with
    | nil =>
      rw [dumpPairs_singleton_decomp k v ('\x7d' :: rest)] at hl
      have hs : parseJsonScalar (skipWs (jdump v ++ '\x7d' :: rest)) =
          some (v, '\x7d' :: rest) := by
        rw [skipWs_jdump v hv]
        exact parseJsonScalar_jdump v _ hv (fun c hc => by
          simp only [List.head?_cons, Option.some.injEq] at hc
          subst hc
          exact ⟨by decide, by decide⟩)
      rw [parseJsonPairs_key_step2 f l k (jdump v ++ '\x7d' :: rest) v
        ('\x7d' :: rest) hl hs]
      simp only [show skipWs ('\x7d' :: rest) = '\x7d' :: rest
        from skipWs_cons _ (by decide)]
      rw [if_neg (show ¬(List.take 1 ('\x7d' :: rest) = pstr ",") from fun h => by
          rw [show List.take 1 ('\x7d' :: rest) = ['\x7d'] from rfl] at h
          exact absurd h (by decide)),
        if_pos (show List.take 1 ('\x7d' :: rest) = pstr "\x7d" from rfl)]
      rfl
    | cons q ts =>
      rw [dumpPairs_cons_decomp k v q ts ('\x7d' :: rest)] at hl
      have hs : parseJsonScalar
          (skipWs (jdump v ++ ',' :: ' ' :: (dumpPairs (q :: ts) ++ '\x7d' :: rest))) =
          some (v, ',' :: ' ' :: (dumpPairs (q :: ts) ++ '\x7d' :: rest)) := by
        rw [skipWs_jdump v hv]
        exact parseJsonScalar_jdump v _ hv (fun c hc => by
          simp only [List.head?_cons, Option.some.injEq] at hc
          subst hc
          exact ⟨by decide, by decide⟩)
      rw [parseJsonPairs_key_step2 f l k
        (jdump v ++ ',' :: ' ' :: (dumpPairs (q :: ts) ++ '\x7d' :: rest)) v
        (',' :: ' ' :: (dumpPairs (q :: ts) ++ '\x7d' :: rest)) hl hs]
      simp only [show
        skipWs (',' :: ' ' :: (dumpPairs (q :: ts) ++ '\x7d' :: rest)) =
          ',' :: ' ' :: (dumpPairs (q :: ts) ++ '\x7d' :: rest)
        from skipWs_cons _ (by decide)]
      rw [if_pos (show List.take 1
          (',' :: ' ' :: (dumpPairs (q :: ts) ++ '\x7d' :: rest)) = pstr "," from rfl),
        List.tail_cons]
      obtain ⟨k2, v2⟩ := q
      rw [ih rest (' ' :: (dumpPairs ((k2, v2) :: ts) ++ '\x7d' :: rest)) f
        (by simp)
        (fun p hp => hok p (List.mem_cons_of_mem _ hp))
        (by simp only [List.length_cons] at hfuel ⊢; omega)
        (by rw [skipWs_space]; exact skipWs_dumpPairs_cons k2 v2 ts ('\x7d' :: rest))]

theorem length_dumpPairs_ge (ps : List (List Char × JVal)) :
    ps.length ≤ (dumpPairs ps).length := by
  induction ps with
  | nil => simp [dumpPairs]
  | cons p t ih =>
    obtain ⟨k, v⟩ := p
    cases t with
    | nil =>
      show 1 ≤ (jstrDump k ++ pstr ": " ++ jdump v).length
      simp only [jstrDump, List.length_append, List.length_cons]
      omega
    | cons q ts =>
      have hih := ih
      show (q :: ts).length + 1 ≤
        (jstrDump k ++ pstr ": " ++ jdump v ++ pstr ", " ++ dumpPairs (q :: ts)).length
      simp only [jstrDump, List.length_append, List.length_cons, List.length_nil,
        show (pstr ": ").length = 2 from rfl,
        show (pstr ", ").length = 2 from rfl] at hih ⊢
      omega

theorem jloads_dumpObj (ps : List (List Char × JVal)) (hne : ps ≠ [])
    (hok : ∀ p ∈ ps, jdumpNumOk p.2) : jloads (dumpObj ps) = some ps := by
  obtain ⟨p, t, rfl⟩ : ∃ p t, ps = p :: t := by
    cases ps with
    | nil => exact absurd rfl hne
    | cons p t => exact ⟨p, t, rfl⟩
  obtain ⟨k, v⟩ := p
  have hskip : skipWs (dumpPairs ((k, v) :: t) ++ ['\x7d']) =
      dumpPairs ((k, v) :: t) ++ ['\x7d'] := skipWs_dumpPairs_cons k v t ['\x7d']
  have hd : ∃ r, dumpPairs ((k, v) :: t) ++ ['\x7d'] = '"' :: r := by
    cases t with
    | nil => exact ⟨_, dumpPairs_singleton_decomp k v ['\x7d']⟩
    | cons q ts => exact ⟨_, dumpPairs_cons_decomp k v q ts ['\x7d']⟩
  obtain ⟨r, hr⟩ := hd
  unfold jloads
  rw [show dumpObj ((k, v) :: t) = '\x7b' :: (dumpPairs ((k, v) :: t) ++ ['\x7d'])
      from rfl,
    show skipWs ('\x7b' :: (dumpPairs ((k, v) :: t) ++ ['\x7d'])) =
        '\x7b' :: (dumpPairs ((k, v) :: t) ++ ['\x7d'])
      from skipWs_cons _ (by decide),
    if_pos (show List.take 1 ('\x7b' :: (dumpPairs ((k, v) :: t) ++ ['\x7d'])) =
      pstr "\x7b" from rfl),
    List.tail_cons, hskip,
    if_neg (show ¬(List.take 1 (dumpPairs ((k, v) :: t) ++ ['\x7d']) = pstr "\x7d")
      from fun h => by
        rw [hr, show List.take 1 ('"' :: r) = ['"'] from rfl] at h
        exact absurd h (by decide)),
    parseJsonPairs_dumpPairs ((k, v) :: t) [] (dumpPairs ((k, v) :: t) ++ ['\x7d'])
      (('\x7b' :: (dumpPairs ((k, v) :: t) ++ ['\x7d'])).length + 1) hne hok
      (by
        have hg := length_dumpPairs_ge ((k, v) :: t)
        simp only [List.length_cons, List.length_append] at hg ⊢
        omega)
      hskip]
  rfl

theorem jlookup_shortcode (post : PostData) (url title now : List Char) :
    jlookup (pstr "shortcode") (logEntryPairs post url title now) =
      some (.jstr post.shortcode) := rfl

/-- A Python string whose `json.dumps` output round-trips through
`splitlines`: it contains none of the three line terminators that
`json.dumps(ensure_ascii=False)` emits unescaped. -/
def strLineSafe (s : List Char) : Prop :=
  ∀ c ∈ s, c ≠ '\x85' ∧ c ≠ '\u2028' ∧ c ≠ '\u2029'

instance (s : List Char) : Decidable (strLineSafe s) :=
  List.decidableBAll _ s

theorem mem_pair {d a b : Char} (h : d ∈ [a, b]) : d = a ∨ d = b := by
  simpa using h

theorem hexDigit_not_break {k : Nat} (h : k < 16) : isLineBreak (hexDigit k) = false := by
  interval_cases k <;> decide

theorem digit_not_break {c : Char} (h : isAsciiDigit c = true) : isLineBreak c = false := by
  by_contra hb
  rw [Bool.not_eq_false] at hb
  have h1 : ((((((((c = '\n' ∨ c = '\x0d') ∨ c = '\x0b') ∨ c = '\x0c') ∨ c = '\x1c') ∨
      c = '\x1d') ∨ c = '\x1e') ∨ c = '\x85') ∨ c = '\u2028') ∨ c = '\u2029' := by
    simpa [isLineBreak] using hb
  rcases h1 with ((((((((h1 | h1) | h1) | h1) | h1) | h1) | h1) | h1) | h1) | h1 <;>
    subst h1 <;> exact absurd h (by decide)

theorem raw_char_not_break {c : Char} (h32 : ¬c.toNat < 32)
    (hs : c ≠ '\x85' ∧ c ≠ '\u2028' ∧ c ≠ '\u2029') : isLineBreak c = false := by
  by_contra hb
  rw [Bool.not_eq_false] at hb
  have h1 : ((((((((c = '\n' ∨ c = '\x0d') ∨ c = '\x0b') ∨ c = '\x0c') ∨ c = '\x1c') ∨
      c = '\x1d') ∨ c = '\x1e') ∨ c = '\x85') ∨ c = '\u2028') ∨ c = '\u2029' := by
    simpa [isLineBreak] using hb
  rcases h1 with ((((((((h1 | h1) | h1) | h1) | h1) | h1) | h1) | h1) | h1) | h1
  · subst h1; exact h32 (by decide)
  · subst h1; exact h32 (by decide)
  · subst h1; exact h32 (by decide)
  · subst h1; exact h32 (by decide)
  · subst h1; exact h32 (by decide)
  · subst h1; exact h32 (by decide)
  · subst h1; exact h32 (by decide)
  · exact absurd h1 hs.1
  · exact absurd h1 hs.2.1
  · exact absurd h1 hs.2.2

theorem escapeJsonChar_not_break {c : Char}
    (hs : c ≠ '\x85' ∧ c ≠ '\u2028' ∧ c ≠ '\u2029') :
    ∀ d ∈ escapeJsonChar c, isLineBreak d = false := by
  intro d hd
  unfold escapeJsonChar at hd
  by_cases h1 : c = '"'
  · rw [if_pos h1, show pstr "\\\"" = ['\\', '"'] from rfl] at hd
    rcases mem_pair hd with rfl | rfl <;> decide
  rw [if_neg h1] at hd
  by_cases h2 : c = '\\'
  · rw [if_pos h2, show pstr "\\\\" = ['\\', '\\'] from rfl] at hd
    rcases mem_pair hd with rfl | rfl <;> decide
  rw [if_neg h2] at hd
  by_cases h3 : c = '\n'
  · rw [if_pos h3, show pstr "\\n" = ['\\', 'n'] from rfl] at hd
    rcases mem_pair hd with rfl | rfl <;> decide
  rw [if_neg h3] at hd
  by_cases h4 : c = '\x0d'
  · rw [if_pos h4, show pstr "\\r" = ['\\', 'r'] from rfl] at hd
    rcases mem_pair hd with rfl | rfl <;> decide
  rw [if_neg h4] at hd
  by_cases h5 : c = '\t'
  · rw [if_pos h5, show pstr "\\t" = ['\\', 't'] from rfl] at hd
    rcases mem_pair hd with rfl | rfl <;> decide
  rw [if_neg h5] at hd
  by_cases h6 : c = '\x08'
  · rw [if_pos h6, show pstr "\\b" = ['\\', 'b'] from rfl] at hd
    rcases mem_pair hd with rfl | rfl <;> decide
  rw [if_neg h6] at hd
  by_cases h7 : c = '\x0c'
  · rw [if_pos h7, show pstr "\\f" = ['\\', 'f'] from rfl] at hd
    rcases mem_pair hd with rfl | rfl <;> decide
  rw [if_neg h7] at hd
  by_cases h8 : c.toNat < 32
  · rw [if_pos h8, show pstr "\\u00" = ['\\', 'u', '0', '0'] from rfl] at hd
    rw [List.mem_append] at hd
    rcases hd with hd | hd
    · have hd' : d = '\\' ∨ d = 'u' ∨ d = '0' ∨ d = '0' := by simpa using hd
      rcases hd' with rfl | rfl | rfl | rfl <;> decide
    · rcases mem_pair hd with rfl | rfl
      · exact hexDigit_not_break (by omega)
      · exact hexDigit_not_break (by omega)
  rw [if_neg h8, List.mem_singleton] at hd
  subst hd
  exact raw_char_not_break h8 hs

theorem escapeJsonString_not_break {s : List Char} (hs : strLineSafe s) :
    ∀ d ∈ escapeJsonString s, isLineBreak d = false := by
  intro d hd
  unfold escapeJsonString at hd
  rw [List.mem_flatten] at hd
  obtain ⟨l, hl, hdl⟩ := hd
  rw [List.mem_map] at hl
  obtain ⟨c, hc, rfl⟩ := hl
  exact escapeJsonChar_not_break (hs c hc) d hdl

theorem jstrDump_not_break {s : List Char} (hs : strLineSafe s) :
    ∀ d ∈ jstrDump s, isLineBreak d = false := by
  intro d hd
  unfold jstrDump at hd
  simp only [List.cons_append, List.mem_cons, List.mem_append,
    List.mem_singleton, List.not_mem_nil, or_false] at hd
  rcases hd with rfl | hd | rfl
  · decide
  · exact escapeJsonString_not_break hs d hd
  · decide

theorem intToDigits_not_break (n : Int) : ∀ c ∈ intToDigits n, isLineBreak c = false := by
  intro c hc
  unfold intToDigits at hc
  split at hc
  · rcases List.mem_cons.mp hc with rfl | hc
    · decide
    · exact digit_not_break (natToDigits_all_digits _ c hc)
  · exact digit_not_break (natToDigits_all_digits _ c hc)

theorem decDump_not_break (m : Int) (d : Nat) (hd : 1 ≤ d) :
    ∀ c ∈ decDump m d, isLineBreak c = false := by
  obtain ⟨A, B, _, _, hAdig, hBdig, _, hshape⟩ := decDump_shape m d hd
  intro c hc
  rw [hshape] at hc
  simp only [List.mem_append, List.mem_cons] at hc
  rcases hc with hc | hc | rfl | hc
  · split at hc
    · rw [List.mem_singleton] at hc
      subst hc
      decide
    · exact absurd hc (List.not_mem_nil c)
  · exact digit_not_break (hAdig c hc)
  · decide
  · exact digit_not_break (hBdig c hc)

theorem jdump_not_break (v : JVal) (hv : jdumpNumOk v)
    (hstr : ∀ s, v = .jstr s → strLineSafe s) :
    ∀ c ∈ jdump v, isLineBreak c = false := by
  cases v with
  | jnull => decide
  | jbool b => cases b <;> decide
  | jint n => exact intToDigits_not_break n
  | jdec m d => exact decDump_not_break m d hv
  | jstr s => exact jstrDump_not_break (hstr s rfl)

theorem dumpPairs_not_break :
    ∀ (ps : List (List Char × JVal)),
      (∀ p ∈ ps, jdumpNumOk p.2) →
      (∀ p ∈ ps, strLineSafe p.1) →
      (∀ p ∈ ps, ∀ s, p.2 = .jstr s → strLineSafe s) →
      ∀ c ∈ dumpPairs ps, isLineBreak c = false := by
  intro ps
  induction ps with
  | nil => intro _ _ _ c hc; exact absurd hc (List.not_mem_nil c)
  | cons p t ih =>
    obtain ⟨k, v⟩ := p
    intro hok hkeys hstrs c hc
    have hk : strLineSafe k := hkeys (k, v) (List.mem_cons_self _ _)
    have hv : jdumpNumOk v := hok (k, v) (List.mem_cons_self _ _)
    have hvs : ∀ s, v = .jstr s → strLineSafe s := hstrs (k, v) (List.mem_cons_self _ _)
    cases t with
    | nil =>
      rw [show dumpPairs [(k, v)] = jstrDump k ++ pstr ": " ++ jdump v from rfl] at hc
      simp only [List.mem_append] at hc
      rcases hc with (hc | hc) | hc
      · exact jstrDump_not_break hk c hc
      · rw [show pstr ": " = [':', ' '] from rfl] at hc
        rcases mem_pair hc with rfl | rfl <;> decide
      · exact jdump_not_break v hv hvs c hc
    | cons q ts =>
      rw [show dumpPairs ((k, v) :: q :: ts) =
        jstrDump k ++ pstr ": " ++ jdump v ++ pstr ", " ++ dumpPairs (q :: ts) from rfl] at hc
      simp only [List.mem_append] at hc
      rcases hc with (((hc | hc) | hc) | hc) | hc
      · exact jstrDump_not_break hk c hc
      · rw [show pstr ": " = [':', ' '] from rfl] at hc
        rcases mem_pair hc with rfl | rfl <;> decide
      · exact jdump_not_break v hv hvs c hc
      · rw [show pstr ", " = [',', ' '] from rfl] at hc
        rcases mem_pair hc with rfl | rfl <;> decide
      · exact ih (fun p hp => hok p (List.mem_cons_of_mem _ hp))
          (fun p hp => hkeys p (List.mem_cons_of_mem _ hp))
          (fun p hp => hstrs p (List.mem_cons_of_mem _ hp)) c hc

theorem dumpObj_not_break (ps : List (List Char × JVal))
    (h1 : ∀ p ∈ ps, jdumpNumOk p.2)
    (h2 : ∀ p ∈ ps, strLineSafe p.1)
    (h3 : ∀ p ∈ ps, ∀ s, p.2 = .jstr s → strLineSafe s) :
    ∀ c ∈ dumpObj ps, isLineBreak c = false := by
  intro c hc
  rw [show dumpObj ps = '\x7b' :: (dumpPairs ps ++ ['\x7d']) from rfl] at hc
  simp only [List.mem_cons, List.mem_append, List.mem_singleton,
    List.not_mem_nil, or_false] at hc
  rcases hc with rfl | hc | rfl
  · decide
  · exact dumpPairs_not_break ps h1 h2 h3 c hc
  · decide

/-- The well-formedness under which a log entry's JSON line round-trips:
every serialised string field is free of the three raw line terminators
(`U+0085`, `U+2028`, `U+2029`), and a finite video duration has at least
one fractional digit (as `repr(float)` always prints). -/
def entryWf (post : PostData) (url title now : List Char) : Prop :=
  strLineSafe post.shortcode ∧ strLineSafe url ∧ strLineSafe title ∧
  (∀ s, post.caption = some s → strLineSafe s) ∧
  strLineSafe post.profile ∧ strLineSafe post.dateIso ∧ strLineSafe post.typename ∧
  strLineSafe now ∧ (∀ m d, post.videoDuration = some (m, d) → 1 ≤ d)

theorem logEntryPairs_numOk (post : PostData) (url title now : List Char)
    (hwf : entryWf post url title now) :
    ∀ p ∈ logEntryPairs post url title now, jdumpNumOk p.2 := by
  intro p hp
  simp only [logEntryPairs, List.mem_cons, List.not_mem_nil, or_false] at hp
  rcases hp with rfl | rfl | rfl | rfl | rfl | rfl | rfl | rfl | rfl | rfl | rfl
  · trivial
  · trivial
  · trivial
  · cases post.caption <;> trivial
  · trivial
  · trivial
  · trivial
  · trivial
  · cases post.videoViewCount <;> trivial
  · cases hdur : post.videoDuration with
    | none => trivial
    | some pr => exact hwf.2.2.2.2.2.2.2.2 pr.1 pr.2 (by rw [hdur])
  · trivial

theorem logEntryPairs_keysSafe (post : PostData) (url title now : List Char) :
    ∀ p ∈ logEntryPairs post url title now, strLineSafe p.1 := by
  intro p hp
  simp only [logEntryPairs, List.mem_cons, List.not_mem_nil, or_false] at hp
  rcases hp with rfl | rfl | rfl | rfl | rfl | rfl | rfl | rfl | rfl | rfl | rfl
  · exact (show strLineSafe (pstr "shortcode") from by decide)
  · exact (show strLineSafe (pstr "url") from by decide)
  · exact (show strLineSafe (pstr "title") from by decide)
  · exact (show strLineSafe (pstr "caption") from by decide)
  · exact (show strLineSafe (pstr "profile") from by decide)
  · exact (show strLineSafe (pstr "date_posted") from by decide)
  · exact (show strLineSafe (pstr "typename") from by decide)
  · exact (show strLineSafe (pstr "likes") from by decide)
  · exact (show strLineSafe (pstr "video_view_count") from by decide)
  · exact (show strLineSafe (pstr "video_duration") from by decide)
  · exact (show strLineSafe (pstr "downloaded_at") from by decide)

theorem logEntryPairs_strsSafe (post : PostData) (url title now : List Char)
    (hwf : entryWf post url title now) :
    ∀ p ∈ logEntryPairs post url title now, ∀ s, p.2 = .jstr s → strLineSafe s := by
  obtain ⟨h1, h2, h3, h4, h5, h6, h7, h8, _⟩ := hwf
  intro p hp
  simp only [logEntryPairs, List.mem_cons, List.not_mem_nil, or_false] at hp
  rcases hp with rfl | rfl | rfl | rfl | rfl | rfl | rfl | rfl | rfl | rfl | rfl
  · intro s hs; cases hs; exact h1
  · intro s hs; cases hs; exact h2
  · intro s hs; cases hs; exact h3
  · intro s hs
    cases hcap : post.caption with
    | none => rw [hcap] at hs; simp [optStrJ] at hs
    | some u =>
      rw [hcap] at hs
      simp only [optStrJ, JVal.jstr.injEq] at hs
      subst hs
      exact h4 u hcap
  · intro s hs; cases hs; exact h5
  · intro s hs; cases hs; exact h6
  · intro s hs; cases hs; exact h7
  · intro s hs; cases hs
  · intro s hs
    cases hvv : post.videoViewCount with
    | none => rw [hvv] at hs; simp [optIntJ] at hs
    | some n => rw [hvv] at hs; simp [optIntJ] at hs
  · intro s hs
    cases hvd : post.videoDuration with
    | none => rw [hvd] at hs; simp [optDecJ] at hs
    | some pr => rw [hvd] at hs; simp [optDecJ] at hs
  · intro s hs; cases hs; exact h8

theorem logLine_not_break (post : PostData) (url title now : List Char)
    (hwf : entryWf post url title now) :
    ∀ c ∈ logLine post url title now, isLineBreak c = false :=
  dumpObj_not_break _ (logEntryPairs_numOk post url title now hwf)
    (logEntryPairs_keysSafe post url title now)
    (logEntryPairs_strsSafe post url title now hwf)

set_option maxHeartbeats 1000000 in
theorem splitlinesAux_newline (rest acc : List Char) :
    splitlinesAux ('\n' :: rest) acc = acc.reverse :: splitlinesAux rest [] := rfl

set_option maxHeartbeats 1000000 in
theorem splitlinesAux_crlf (rest acc : List Char) :
    splitlinesAux ('\x0d' :: '\n' :: rest) acc = acc.reverse :: splitlinesAux rest [] := rfl

set_option maxHeartbeats 1000000 in
theorem splitlinesAux_safe_cons (c : Char) (rest acc : List Char)
    (hc : isLineBreak c = false) :
    splitlinesAux (c :: rest) acc = splitlinesAux rest (c :: acc) := by
  have hcr : c ≠ '\x0d' := fun h => by subst h; exact absurd hc (by decide)
  rw [splitlinesAux.eq_def]
  split <;> simp_all

set_option maxHeartbeats 1000000 in
theorem splitlinesAux_break_cons (c d : Char) (rest acc : List Char)
    (hc : isLineBreak c = true) (hnc : ¬(c = '\x0d' ∧ d = '\n')) :
    splitlinesAux (c :: d :: rest) acc = acc.reverse :: splitlinesAux (d :: rest) [] := by
  rw [splitlinesAux.eq_def]
  split <;> simp_all

theorem splitlinesAux_content :
    ∀ (line : List Char), (∀ c ∈ line, isLineBreak c = false) →
      ∀ (b acc : List Char),
        splitlinesAux (line ++ b) acc = splitlinesAux b (line.reverse ++ acc) := by
  intro line
  induction line with
  | nil => intro _ b acc; simp
  | cons c cs ih =>
    intro hline b acc
    rw [List.cons_append, splitlinesAux_safe_cons c (cs ++ b) acc
        (hline c (List.mem_cons_self _ _)),
      ih (fun x hx => hline x (List.mem_cons_of_mem _ hx)) b (c :: acc),
      List.reverse_cons, List.append_assoc, List.singleton_append]

theorem splitlinesAux_flush_append :
    ∀ (n : Nat) (prev : List Char), prev.length ≤ n →
      prev.getLast? = some '\n' →
      ∀ (b acc : List Char),
        splitlinesAux (prev ++ b) acc = splitlinesAux prev acc ++ splitlinesAux b [] := by
  intro n
  induction n with
  | zero =>
    intro prev hlen hlast b acc
    cases prev with
    | nil => simp at hlast
    | cons c rest => simp at hlen
  | succ n ih =>
    intro prev hlen hlast b acc
    cases prev with
    | nil => simp at hlast
    | cons c rest =>
      cases rest with
      | nil =>
        have hc : c = '\n' := by simpa using hlast
        subst hc
        rw [List.cons_append, List.nil_append, splitlinesAux_newline b acc,
          splitlinesAux_newline [] acc,
          show splitlinesAux ([] : List Char) [] = [] from rfl]
        rfl
      | cons d rest2 =>
        rw [List.getLast?_cons_cons] at hlast
        have hlen2 : (d :: rest2).length ≤ n := by
          simp only [List.length_cons] at hlen ⊢
          omega
        by_cases hc : isLineBreak c = true
        · by_cases hcd : c = '\x0d' ∧ d = '\n'
          · obtain ⟨rfl, rfl⟩ := hcd
            rw [show ('\x0d' :: '\n' :: rest2) ++ b = '\x0d' :: '\n' :: (rest2 ++ b) from rfl,
              splitlinesAux_crlf (rest2 ++ b) acc, splitlinesAux_crlf rest2 acc,
              List.cons_append]
            cases rest2 with
            | nil =>
              rw [show splitlinesAux ([] : List Char) [] = [] from rfl, List.nil_append,
                List.nil_append]
            | cons e rest3 =>
              rw [List.getLast?_cons_cons] at hlast
              have hrec : splitlinesAux ((e :: rest3) ++ b) [] =
                  splitlinesAux (e :: rest3) [] ++ splitlinesAux b [] :=
                ih (e :: rest3) (by simp only [List.length_cons] at hlen ⊢; omega) hlast b []
              rw [hrec]
          · have hih2 := ih (d :: rest2) hlen2 hlast b []
            rw [List.cons_append] at hih2
            rw [show (c :: d :: rest2) ++ b = c :: d :: (rest2 ++ b) from rfl,
              splitlinesAux_break_cons c d (rest2 ++ b) acc hc hcd,
              splitlinesAux_break_cons c d rest2 acc hc hcd,
              List.cons_append, hih2]
        · rw [Bool.not_eq_true] at hc
          rw [List.cons_append, splitlinesAux_safe_cons c ((d :: rest2) ++ b) acc hc,
            splitlinesAux_safe_cons c (d :: rest2) acc hc,
            ih (d :: rest2) hlen2 hlast b (c :: acc)]

theorem pySplitlines_append_line (prev line : List Char)
    (hprev : prev = [] ∨ prev.getLast? = some '\n')
    (hline : ∀ c ∈ line, isLineBreak c = false) :
    pySplitlines (prev ++ (line ++ ['\n'])) = pySplitlines prev ++ [line] := by
  have h1 : splitlinesAux (line ++ ['\n']) [] = [line] := by
    rw [splitlinesAux_content line hline ['\n'] [],
      splitlinesAux_newline [] (line.reverse ++ []),
      show splitlinesAux ([] : List Char) [] = [] from rfl,
      List.append_nil, List.reverse_reverse]
  rcases hprev with rfl | hprev
  · rw [List.nil_append]
    show splitlinesAux (line ++ ['\n']) [] = splitlinesAux [] [] ++ [line]
    rw [h1, show splitlinesAux ([] : List Char) [] = [] from rfl, List.nil_append]
  · show splitlinesAux (prev ++ (line ++ ['\n'])) [] = splitlinesAux prev [] ++ [line]
    rw [splitlinesAux_flush_append prev.length prev le_rfl hprev (line ++ ['\n']) [], h1]

theorem pyStripWs_ne_nil {l : List Char} (c : Char) (hc : c ∈ l)
    (hw : isPyWhitespace c = false) : pyStripWs l ≠ [] := by
  intro h0
  unfold pyStripWs at h0
  rw [List.reverse_eq_nil_iff, List.dropWhile_eq_nil_iff] at h0
  have hc2 : c ∈ l.dropWhile isPyWhitespace := by
    have hsplit := List.takeWhile_append_dropWhile isPyWhitespace l
    rw [← hsplit, List.mem_append] at hc
    rcases hc with hc | hc
    · exact absurd (List.mem_takeWhile_imp hc) (by rw [hw]; exact Bool.false_ne_true)
    · exact hc
  exact absurd (h0 c (List.mem_reverse.mpr hc2)) (by rw [hw]; exact Bool.false_ne_true)

theorem logLine_strip_ne_nil (post : PostData) (url title now : List Char) :
    pyStripWs (logLine post url title now) ≠ [] :=
  pyStripWs_ne_nil '\x7b'
    (by
      rw [show logLine post url title now =
        '\x7b' :: (dumpPairs (logEntryPairs post url title now) ++ ['\x7d']) from rfl]
      exact List.mem_cons_self _ _)
    (by decide)

/-- The read-after-append round trip of the download log: under `entryWf`,
appending one entry to a (possibly absent) newline-terminated log gives
exactly the previous shortcode set plus the new post's shortcode. -/
theorem logged_append_ok (file : Option (List Char)) (post : PostData)
    (url title now : List Char)
    (hwf : entryWf post url title now)
    (hend : ∀ t, file = some t → (t = [] ∨ t.getLast? = some '\n'))
    (S : Finset JVal) (hprev : logged_shortcodes file = .ok S) :
    logged_shortcodes (some (append_log file post url title now)) =
      .ok (insert (.jstr post.shortcode) S) := by
  have hfold : (pySplitlines (file.getD [])).foldlM (fun acc line =>
      if pyStripWs line = [] then Except.ok acc
      else match lineShortcode line with
        | none => Except.error ()
        | some v => Except.ok (insert v acc)) (∅ : Finset JVal) = .ok S := by
    cases file with
    | none =>
      have hS : (Except.ok (∅ : Finset JVal) : Except Unit (Finset JVal)) = .ok S := hprev
      rw [show (Option.getD (none : Option (List Char)) []) = [] from rfl,
        show pySplitlines [] = [] from rfl]
      exact hS
    | some t => exact hprev
  have hline : ∀ c ∈ logLine post url title now, isLineBreak c = false :=
    logLine_not_break post url title now hwf
  have hend2 : file.getD [] = [] ∨ (file.getD []).getLast? = some '\n' := by
    cases file with
    | none => exact Or.inl rfl
    | some t => exact hend t rfl
  have happ : append_log file post url title now =
      file.getD [] ++ (logLine post url title now ++ ['\n']) := by
    unfold append_log
    rw [List.append_assoc]
  have hstep : (if pyStripWs (logLine post url title now) = [] then Except.ok S
      else match lineShortcode (logLine post url title now) with
        | none => Except.error ()
        | some v => Except.ok (insert v S)) =
      Except.ok (insert (.jstr post.shortcode) S) := by
    rw [if_neg (logLine_strip_ne_nil post url title now)]
    rw [show lineShortcode (logLine post url title now) =
        jlookup (pstr "shortcode") (logEntryPairs post url title now) from by
          unfold lineShortcode
          rw [show logLine post url title now =
            dumpObj (logEntryPairs post url title now) from rfl,
            jloads_dumpObj (logEntryPairs post url title now)
              (show logEntryPairs post url title now ≠ [] from List.cons_ne_nil _ _)
              (logEntryPairs_numOk post url title now hwf)]]
    rw [jlookup_shortcode post url title now]
  rw [happ,
    show logged_shortcodes (some (file.getD [] ++ (logLine post url title now ++ ['\n']))) =
      (pySplitlines (file.getD [] ++ (logLine post url title now ++ ['\n']))).foldlM
        (fun acc line =>
          if pyStripWs line = [] then Except.ok acc
          else match lineShortcode line with
            | none => Except.error ()
            | some v => Except.ok (insert v acc)) (∅ : Finset JVal) from rfl,
    pySplitlines_append_line (file.getD []) (logLine post url title now) hend2 hline,
    List.foldlM_append, hfold]
  show ((if pyStripWs (logLine post url title now) = [] then Except.ok S
      else match lineShortcode (logLine post url title now) with
        | none => Except.error ()
        | some v => Except.ok (insert v S)) >>= fun b => Except.ok b) =
    Except.ok (insert (JVal.jstr post.shortcode) S)
  rw [hstep]
  rfl

/-- A concrete well-formed post for exercising the log round trip. -/
def c8SamplePost : PostData :=
  { shortcode := pstr "ABC123", caption := some (pstr "hello world"),
    profile := pstr "alice", dateIso := pstr "2024-01-02T03:04:05+00:00",
    dateYear := 2024, typename := pstr "GraphImage", likes := 5,
    videoViewCount := none, videoDuration := some (35, 1) }

/-- A post whose caption contains a raw U+2028 line separator, which
`json.dumps(ensure_ascii=False)` writes unescaped and `splitlines` then
splits on. -/
def c8BadPost : PostData :=
  { shortcode := pstr "XYZ", caption := some ['a', '\u2028', 'b'],
    profile := pstr "bob", dateIso := pstr "2024-01-02T03:04:05+00:00",
    dateYear := 2024, typename := pstr "GraphVideo", likes := 1,
    videoViewCount := some 10, videoDuration := some (35, 1) }

/-- C8: `logged_shortcodes` returns the empty set for an absent file, and
the read-after-append round trip holds — provided the entry is
well-formed (`entryWf`: no raw U+0085/U+2028/U+2029 in any serialised
string field, and a finite video duration with at least one fractional
digit) and the prior file is empty or ends in a newline.  Without these
hypotheses the round trip fails (see the counterexample). -/
theorem logged_shortcodes_append_roundtrip
    (file : Option (List Char)) (post : PostData) (url title now : List Char)
    (hwf : entryWf post url title now)
    (hend : ∀ t, file = some t → (t = [] ∨ t.getLast? = some '\n'))
    (S : Finset JVal) (hprev : logged_shortcodes file = .ok S) :
    logged_shortcodes none = .ok (∅ : Finset JVal) ∧
    logged_shortcodes (some (append_log file post url title now)) =
      .ok (insert (.jstr post.shortcode) S) :=
  ⟨rfl, logged_append_ok file post url title now hwf hend S hprev⟩

theorem logged_shortcodes_append_roundtrip_witness :
    logged_shortcodes none = .ok (∅ : Finset JVal) ∧
    logged_shortcodes (some (append_log none c8SamplePost (pstr "https://u")
      (pstr "title") (pstr "2026-01-01T00:00:00+00:00"))) =
      .ok (insert (.jstr (pstr "ABC123")) (∅ : Finset JVal)) :=
  logged_shortcodes_append_roundtrip none c8SamplePost (pstr "https://u") (pstr "title")
    (pstr "2026-01-01T00:00:00+00:00")
    ⟨by decide, by decide, by decide, fun s hs => by cases hs; decide,
      by decide, by decide, by decide, by decide,
      fun m d hd => by cases hd; decide⟩
    (fun t ht => nomatch ht) ∅ rfl

set_option maxRecDepth 100000 in
set_option maxHeartbeats 2000000 in
theorem logged_append_counterexample :
    logged_shortcodes (some (append_log none c8BadPost (pstr "u") (pstr "t")
      (pstr "now"))) = .error () := by rfl

theorem updateLog_self (fs : FS) (dir content : List Char) :
    (updateLog fs dir content).logFiles dir = some content := by
  simp [updateLog]

/-- The skip path of `main`: with the shortcode already logged, the run
prints the fetching message, performs the metadata fetch, prints the
confirmation, and succeeds with the filesystem unchanged. -/
theorem runDownload_skip (env : MainEnv) (fs : FS) (rawUrl url sc uname : List Char)
    (maxLen : Int) (base : List Char) (codes : Finset JVal)
    (hurl : clean_url rawUrl = .ok url)
    (hsc : extract_shortcode url = some sc)
    (hses : env.sessionUser = some uname) (hu : ¬uname = [])
    (hlog : logged_shortcodes (fs.logFiles (joinPath base (fetchPost env sc).profile)) =
      .ok codes)
    (hmem : JVal.jstr sc ∈ codes) :
    runDownload env fs rawUrl maxLen base =
      ⟨[.printed (pstr "Fetching " ++ sc ++ pstr " (session: " ++ uname ++ pstr ")..."),
        .fetchedPost sc,
        .printed (pstr "Already downloaded: " ++ sc)], .success, fs⟩ := by
  unfold runDownload
  simp only [hurl, hsc, hses]
  rw [if_neg hu]
  simp only [hlog]
  rw [if_pos hmem]
  rfl

/-- The fresh path of `main`: with the shortcode not yet logged, the run
succeeds, its network activity is the metadata fetch followed by the media
download, and it appends exactly one log line for the post. -/
theorem runDownload_fresh (env : MainEnv) (fs : FS) (rawUrl url sc uname : List Char)
    (maxLen : Int) (base : List Char) (codes : Finset JVal)
    (hurl : clean_url rawUrl = .ok url)
    (hsc : extract_shortcode url = some sc)
    (hses : env.sessionUser = some uname) (hu : ¬uname = [])
    (hlog : logged_shortcodes (fs.logFiles (joinPath base (fetchPost env sc).profile)) =
      .ok codes)
    (hnot : JVal.jstr sc ∉ codes) :
    (runDownload env fs rawUrl maxLen base).status = .success ∧
    (runDownload env fs rawUrl maxLen base).fs.logFiles
        (joinPath base (fetchPost env sc).profile) =
      some (append_log (fs.logFiles (joinPath base (fetchPost env sc).profile))
        (fetchPost env sc) url
        (if sanitize (pyStripWs
            ((splitChar '\n' ((fetchPost env sc).caption.getD [])).headD [])) maxLen = []
         then sc
         else sanitize (pyStripWs
            ((splitChar '\n' ((fetchPost env sc).caption.getD [])).headD [])) maxLen)
        env.now) ∧
    (runDownload env fs rawUrl maxLen base).events.filter isNetworkEvent =
      [.fetchedPost sc, .downloadedPost sc] := by
  unfold runDownload
  simp only [hurl, hsc, hses]
  rw [if_neg hu]
  simp only [hlog]
  rw [if_neg hnot]
  by_cases ht : sanitize (pyStripWs
      ((splitChar '\n' ((fetchPost env sc).caption.getD [])).headD [])) maxLen = []
  · rw [if_pos ht, if_pos ht]
    refine ⟨rfl, ?_, ?_⟩
    · exact updateLog_self _ _ _
    · rfl
  · rw [if_neg ht, if_neg ht]
    refine ⟨rfl, ?_, ?_⟩
    · exact updateLog_self _ _ _
    · show (([Event.printed (pstr "Fetching " ++ sc ++ pstr " (session: " ++ uname ++ pstr ")..."),
          Event.fetchedPost sc, Event.madeDir base, Event.downloadedPost sc] ++
          ((env.mediaSuffixes sc).map fun suf =>
            Event.renamedFile
              (joinPath (joinPath (joinPath base (fetchPost env sc).profile)
                (natToDigits (fetchPost env sc).dateYear)) (sc ++ suf))
              (joinPath (joinPath (joinPath base (fetchPost env sc).profile)
                (natToDigits (fetchPost env sc).dateYear))
                (sanitize (pyStripWs
                  ((splitChar '\n' ((fetchPost env sc).caption.getD [])).headD [])) maxLen ++
                  suf))) ++
          [Event.appendedLog (joinPath base (fetchPost env sc).profile)
            (logLine (fetchPost env sc) url
              (sanitize (pyStripWs
                ((splitChar '\n' ((fetchPost env sc).caption.getD [])).headD [])) maxLen)
              env.now),
           Event.printed (pstr "Saved: " ++ joinPath (joinPath (joinPath base
             (fetchPost env sc).profile) (natToDigits (fetchPost env sc).dateYear))
             (sanitize (pyStripWs
               ((splitChar '\n' ((fetchPost env sc).caption.getD [])).headD [])) maxLen))]).filter
          isNetworkEvent) = [Event.fetchedPost sc, Event.downloadedPost sc]
      rw [List.filter_append, List.filter_append, List.filter_map]
      rw [show (isNetworkEvent ∘ fun suf =>
          Event.renamedFile
            (joinPath (joinPath (joinPath base (fetchPost env sc).profile)
              (natToDigits (fetchPost env sc).dateYear)) (sc ++ suf))
            (joinPath (joinPath (joinPath base (fetchPost env sc).profile)
              (natToDigits (fetchPost env sc).dateYear))
              (sanitize (pyStripWs
                ((splitChar '\n' ((fetchPost env sc).caption.getD [])).headD [])) maxLen ++
                suf))) = fun _ => false from funext fun suf => rfl]
      simp
      rfl

/-- C1: corrected.  The code fetches the post's metadata over the network
*before* the log check (the profile directory needs `post.profile`), so a
skip run is not free of network activity and a second invocation repeats
the metadata fetch.  What does hold: a first fresh run succeeds; the second
run on the resulting filesystem prints the fetching message, performs only
the metadata fetch, prints the confirmation, succeeds, changes nothing on
disk and performs no write events; across both runs the media download
(`download_post`) happens exactly once. -/
theorem download_flow_idempotence
    (env : MainEnv) (fs : FS) (rawUrl url sc uname : List Char) (maxLen : Int)
    (base : List Char) (codes : Finset JVal)
    (hurl : clean_url rawUrl = .ok url)
    (hsc : extract_shortcode url = some sc)
    (hses : env.sessionUser = some uname) (hu : ¬uname = [])
    (hlog : logged_shortcodes (fs.logFiles (joinPath base (fetchPost env sc).profile)) =
      .ok codes)
    (hnot : JVal.jstr sc ∉ codes)
    (hwf : entryWf (fetchPost env sc) url
      (if sanitize (pyStripWs
          ((splitChar '\n' ((fetchPost env sc).caption.getD [])).headD [])) maxLen = []
       then sc
       else sanitize (pyStripWs
          ((splitChar '\n' ((fetchPost env sc).caption.getD [])).headD [])) maxLen)
      env.now)
    (hend : ∀ t, fs.logFiles (joinPath base (fetchPost env sc).profile) = some t →
      (t = [] ∨ t.getLast? = some '\n')) :
    (runDownload env fs rawUrl maxLen base).status = .success ∧
    runDownload env (runDownload env fs rawUrl maxLen base).fs rawUrl maxLen base =
      ⟨[Event.printed (pstr "Fetching " ++ sc ++ pstr " (session: " ++ uname ++ pstr ")..."),
        Event.fetchedPost sc,
        Event.printed (pstr "Already downloaded: " ++ sc)], .success,
       (runDownload env fs rawUrl maxLen base).fs⟩ ∧
    ((runDownload env (runDownload env fs rawUrl maxLen base).fs rawUrl maxLen
        base).events.filter isWriteEvent = []) ∧
    (((runDownload env fs rawUrl maxLen base).events ++
      (runDownload env (runDownload env fs rawUrl maxLen base).fs rawUrl maxLen
        base).events).filter isNetworkEvent =
      [Event.fetchedPost sc, Event.downloadedPost sc, Event.fetchedPost sc]) := by
  obtain ⟨h1, h2, h3⟩ := runDownload_fresh env fs rawUrl url sc uname maxLen base codes
    hurl hsc hses hu hlog hnot
  have hlog2 : logged_shortcodes ((runDownload env fs rawUrl maxLen base).fs.logFiles
      (joinPath base (fetchPost env sc).profile)) = .ok (insert (JVal.jstr sc) codes) := by
    rw [h2]
    exact logged_append_ok (fs.logFiles (joinPath base (fetchPost env sc).profile))
      (fetchPost env sc) url
      (if sanitize (pyStripWs
          ((splitChar '\n' ((fetchPost env sc).caption.getD [])).headD [])) maxLen = []
       then sc
       else sanitize (pyStripWs
          ((splitChar '\n' ((fetchPost env sc).caption.getD [])).headD [])) maxLen)
      env.now hwf hend codes hlog
  have hskip := runDownload_skip env (runDownload env fs rawUrl maxLen base).fs rawUrl url
    sc uname maxLen base (insert (JVal.jstr sc) codes) hurl hsc hses hu hlog2
    (Finset.mem_insert_self _ _)
  refine ⟨h1, hskip, ?_, ?_⟩
  · rw [hskip]
    rfl
  · rw [List.filter_append, h3, hskip]
    rfl

/-- The post returned by the environment in the idempotence examples. -/
def c1Post : PostData :=
  { shortcode := pstr "PLACEHOLDER", caption := some (pstr "hello world"),
    profile := pstr "alice", dateIso := pstr "2024-01-02T03:04:05+00:00",
    dateYear := 2024, typename := pstr "GraphImage", likes := 3,
    videoViewCount := none, videoDuration := none }

def c1Env : MainEnv :=
  { sessionUser := some (pstr "alice"), postData := fun _ => c1Post,
    mediaSuffixes := fun _ => [pstr ".mp4"], now := pstr "2026-01-01T00:00:00+00:00" }

def c1EmptyFs : FS := ⟨fun _ => none⟩

set_option maxRecDepth 100000 in
theorem download_flow_idempotence_witness :
    (runDownload c1Env c1EmptyFs (pstr "https://www.instagram.com/p/ABC/?utm=x") 70
      (pstr "/out")).status = .success ∧
    runDownload c1Env (runDownload c1Env c1EmptyFs
        (pstr "https://www.instagram.com/p/ABC/?utm=x") 70 (pstr "/out")).fs
      (pstr "https://www.instagram.com/p/ABC/?utm=x") 70 (pstr "/out") =
      ⟨[Event.printed (pstr "Fetching " ++ pstr "ABC" ++ pstr " (session: " ++
          pstr "alice" ++ pstr ")..."),
        Event.fetchedPost (pstr "ABC"),
        Event.printed (pstr "Already downloaded: " ++ pstr "ABC")], .success,
       (runDownload c1Env c1EmptyFs (pstr "https://www.instagram.com/p/ABC/?utm=x") 70
         (pstr "/out")).fs⟩ ∧
    ((runDownload c1Env (runDownload c1Env c1EmptyFs
        (pstr "https://www.instagram.com/p/ABC/?utm=x") 70 (pstr "/out")).fs
      (pstr "https://www.instagram.com/p/ABC/?utm=x") 70
        (pstr "/out")).events.filter isWriteEvent = []) ∧
    (((runDownload c1Env c1EmptyFs (pstr "https://www.instagram.com/p/ABC/?utm=x") 70
        (pstr "/out")).events ++
      (runDownload c1Env (runDownload c1Env c1EmptyFs
          (pstr "https://www.instagram.com/p/ABC/?utm=x") 70 (pstr "/out")).fs
        (pstr "https://www.instagram.com/p/ABC/?utm=x") 70
          (pstr "/out")).events).filter isNetworkEvent =
      [Event.fetchedPost (pstr "ABC"), Event.downloadedPost (pstr "ABC"),
       Event.fetchedPost (pstr "ABC")]) :=
  download_flow_idempotence c1Env c1EmptyFs
    (pstr "https://www.instagram.com/p/ABC/?utm=x")
    (pstr "https://www.instagram.com/p/ABC/") (pstr "ABC") (pstr "alice") 70
    (pstr "/out") ∅ rfl rfl rfl (by decide) rfl (Finset.not_mem_empty _)
    ⟨by decide, by decide, by decide,
      (fun s hs => by
        cases (show some (pstr "hello world") = some s from hs)
        decide),
      by decide, by decide, by decide, by decide,
      (fun m d hd => nomatch (show (none : Option (Int × Nat)) = some (m, d) from hd))⟩
    (fun t ht => nomatch (show (none : Option (List Char)) = some t from ht))

def c1LoggedFs : FS :=
  ⟨fun p => if p = pstr "/out/alice" then
    some (pstr "\x7b\"shortcode\": \"ABC\"\x7d\n") else none⟩

set_option maxRecDepth 100000 in
set_option maxHeartbeats 2000000 in
theorem download_skip_counterexample :
    logged_shortcodes (c1LoggedFs.logFiles (pstr "/out/alice")) =
      .ok ({JVal.jstr (pstr "ABC")} : Finset JVal) ∧
    (runDownload c1Env c1LoggedFs (pstr "https://www.instagram.com/p/ABC/?utm=x") 70
      (pstr "/out")).events.filter isNetworkEvent = [Event.fetchedPost (pstr "ABC")] ∧
    (runDownload c1Env c1LoggedFs (pstr "https://www.instagram.com/p/ABC/?utm=x") 70
      (pstr "/out")).status = .success :=
  ⟨rfl, rfl, rfl⟩

end InstaDl
